import Mathlib

/-!
Verification of the mcp-sql-server / sql_playground_mcp core against its
specification.  The Python sources are shallowly embedded: text is modelled
as `List Char` (one entry per code point), machine integers as `Int`/`Nat`,
fallible operations as `Option`/`Except`, and the regular-expression calls of
the source are embedded as explicit scanning functions with the same
semantics (word boundaries, greedy octet matching, leftmost non-overlapping
substitution).  Character classes are modelled at ASCII precision, matching
the data (SQL keywords, redaction patterns) the program manipulates.
-/

namespace SqlMcp

/-- Word character in the sense of the regex `\w` class (ASCII model):
letters, digits and underscore. -/
def wordChar (c : Char) : Bool := c.isAlphanum || c == '_'

/-- Whitespace in the sense of Python `str.split`/`str.strip` (ASCII model). -/
def pyIsSpace (c : Char) : Bool :=
  c == ' ' || c == '\t' || c == '\n' || c == '\x0d' || c == '\x0b' || c == '\x0c'

/-- Per-character uppercasing, modelling Python `str.upper` on ASCII text. -/
def pyUpper (c : Char) : Char := c.toUpper

/-- Per-character lowercasing, modelling Python `str.lower` / the effect of
`re.IGNORECASE` comparison on ASCII text. -/
def pyLower (c : Char) : Char := c.toLower

/-- Python `str.strip`: drop leading and trailing whitespace. -/
def pyStrip (s : List Char) : List Char :=
  ((s.dropWhile pyIsSpace).reverse.dropWhile pyIsSpace).reverse

/-- Accumulator loop for `pyWords`: `acc` holds the current word reversed. -/
def pyWordsAux (acc : List Char) : List Char → List (List Char)
  | [] => if acc = [] then [] else [acc.reverse]
  | c :: cs =>
    if pyIsSpace c then
      if acc = [] then pyWordsAux [] cs else acc.reverse :: pyWordsAux [] cs
    else pyWordsAux (c :: acc) cs

/-- Python `str.split()` with no arguments: maximal runs of non-whitespace. -/
def pyWords (s : List Char) : List (List Char) := pyWordsAux [] s

/-- True when the list starts with a non-word character or is empty: the
right-hand side of a regex `\b` word boundary after a word character. -/
def boundaryR : List Char → Bool
  | [] => true
  | c :: _ => !wordChar c

/-- True when the list starts with a word character. -/
def headIsWord : List Char → Bool
  | [] => false
  | c :: _ => wordChar c

/-- Case-insensitively strip `pat` from the front of a list, returning the
remainder on success (the comparison `re.IGNORECASE` performs). -/
def ciStrip : List Char → List Char → Option (List Char)
  | [], s => some s
  | _ :: _, [] => none
  | p :: ps, c :: rest => if pyLower c = pyLower p then ciStrip ps rest else none

/-- Scan for a `\bPAT\b` occurrence of the (word-charactered) pattern `pat`:
`prev` records whether the character before the current position is a word
character.  Models `re.search(rf"\b{keyword}\b", text)`. -/
def kwScan (pat : List Char) (prev : Bool) : List Char → Bool
  | [] => false
  | c :: rest =>
    (!prev && pat.isPrefixOf (c :: rest) && boundaryR (List.drop pat.length (c :: rest))) ||
      kwScan pat (wordChar c) rest

/-- Scan for a `\bPAT\w+` occurrence of `pat` (case-insensitive), i.e. the
pattern at a word boundary followed by at least one word character.  Models
`re.search(rf"\b{prefix}\w+", text, re.IGNORECASE)`. -/
def pfxScan (pat : List Char) (prev : Bool) : List Char → Bool
  | [] => false
  | c :: rest =>
    (!prev && (match ciStrip pat (c :: rest) with
               | some r => headIsWord r
               | none => false)) ||
      pfxScan pat (wordChar c) rest

/-- Blocked SQL keywords of `security.py` (`BLOCKED_KEYWORDS`). -/
def BLOCKED_KEYWORDS : List (List Char) :=
  ["DROP".data, "TRUNCATE".data, "ALTER".data, "CREATE".data, "GRANT".data,
   "REVOKE".data, "SHUTDOWN".data, "BACKUP".data, "RESTORE".data, "DBCC".data,
   "OPENROWSET".data, "OPENQUERY".data, "OPENDATASOURCE".data, "BULK".data,
   "KILL".data]

/-- Blocked system-procedure name patterns of `security.py`
(`BLOCKED_PREFIXES`). -/
def blockedProcPats : List (List Char) := ["xp_".data, "sp_".data]

/-- Statement keywords allowed for read-only queries
(`ALLOWED_QUERY_KEYWORDS`). -/
def ALLOWED_QUERY_KEYWORDS : List (List Char) := ["SELECT".data, "WITH".data]

/-- Statement keywords additionally allowed when modifications are permitted
(`ALLOWED_STATEMENT_KEYWORDS`). -/
def ALLOWED_STATEMENT_KEYWORDS : List (List Char) :=
  ["INSERT".data, "UPDATE".data, "DELETE".data]

/-- Embedding of `security.validate_query(sql, allow_modifications)`.
Returns `(is_valid, error_message)` exactly as the source does: empty check,
blocked-keyword scan on the upper-cased stripped text, blocked-prefix scan,
then the first-token check. -/
def validate_query (sql : List Char) (allow_modifications : Bool) :
    Bool × List Char :=
  if sql = [] ∨ pyStrip sql = [] then (false, "Query cannot be empty".data)
  else
    let sql_upper := pyStrip (sql.map pyUpper)
    match BLOCKED_KEYWORDS.find? (fun kw => kwScan kw false sql_upper) with
    | some kw => (false, "Blocked keyword detected: ".data ++ kw)
    | none =>
      match blockedProcPats.find? (fun p => pfxScan p false sql_upper) with
      | some p => (false, "System procedure calls not allowed: ".data ++ p ++ "*".data)
      | none =>
        let first_word := (pyWords sql_upper).headD []
        let allowed :=
          if allow_modifications then ALLOWED_QUERY_KEYWORDS ++ ALLOWED_STATEMENT_KEYWORDS
          else ALLOWED_QUERY_KEYWORDS
        if first_word ∈ allowed then (true, [])
        else (false, "Statement type '".data ++ first_word ++ "' not allowed".data)

/-! Query-execution pipeline (`tools/query_execution.py` and
`database.py`). -/

/-- Clamp of the `limit` argument performed by `execute_query`:
`limit = max(1, min(limit, 10000))`. -/
def clampLimit (limit : Int) : Int := max 1 (min limit 10000)

/-- Embedding of `_inject_top_clause(sql, limit)`: wraps the query with
`SELECT TOP <limit+1> * FROM (<sql>) AS _limited_query`. -/
def inject_top_clause (sql : List Char) (limit : Int) : List Char :=
  "SELECT TOP ".data ++ (toString (limit + 1)).data ++ " * FROM (".data ++
    sql ++ ") AS _limited_query".data

/-- Assignment `d[k] = v` on a Python dict modelled as an association list in
insertion order: an existing key keeps its position and gets the new value. -/
def dictInsert (acc : List (List Char × α)) (k : List Char) (v : α) :
    List (List Char × α) :=
  if acc.any (fun kv => kv.1 = k) then
    acc.map (fun kv => if kv.1 = k then (k, v) else kv)
  else acc ++ [(k, v)]

/-- Python `dict(pairs)`: fold the pairs into an insertion-ordered map. -/
def dictOfPairs (ps : List (List Char × α)) : List (List Char × α) :=
  ps.foldl (fun acc kv => dictInsert acc kv.1 kv.2) []

/-- Python `dict(zip(columns, row))` (zip truncates to the shorter list). -/
def dictZip (cols : List (List Char)) (row : List α) : List (List Char × α) :=
  dictOfPairs (cols.zip row)

/-- Embedding of `DatabaseManager.execute_query` result materialisation: with
no column description the row list is empty; otherwise each driver row is
turned into a `{column → value}` map. -/
def db_execute_query (desc : Option (List (List Char))) (raw : List (List α)) :
    List (List (List Char × α)) :=
  match desc with
  | none => []
  | some cols => raw.map (fun row => dictZip cols row)

/-- Shaped outcome of the `execute_query` tool: either the error dict
`(success=False, error)` or the success dict, with the SQL text actually
dispatched to the database handle recorded for observation. -/
inductive QueryOutcome (α : Type) where
  | failed (error : List Char)
  | ok (dispatched : List Char) (columns : List (List Char))
      (rows : List (List (List Char × α))) (row_count : Nat) (truncated : Bool)
deriving DecidableEq

/-- The SQL dispatched to the database handle, when the call got that far. -/
def dispatchedOf : QueryOutcome α → Option (List Char)
  | .failed _ => none
  | .ok d _ _ _ _ => some d

/-- Embedding of `execute_query(sql, params, limit, database)`: validate in
read mode, clamp the limit, wrap the SQL, execute (the driver's column
description and raw rows are inputs), detect truncation with the extra row,
and shape the result. -/
def execute_query_tool (sql : List Char) (limit : Int)
    (desc : Option (List (List Char))) (raw : List (List α)) : QueryOutcome α :=
  match validate_query sql false with
  | (false, err) => .failed err
  | (true, _) =>
    let L := clampLimit limit
    let limited_sql := inject_top_clause sql L
    let results := db_execute_query desc raw
    let truncated := decide (results.length > L.toNat)
    let results2 := if truncated then results.take L.toNat else results
    .ok limited_sql ((results2.headD []).map (fun kv => kv.1)) results2
      results2.length truncated

/-! Registry (`registry.py`). -/

/-- Registry state: the configured aliases and the lazily materialised
managers (handles identified by an opaque number). -/
structure Registry where
  configs : List (List Char)
  managers : List (List Char × Nat)

/-- Python `dict.pop(k, None)`: the removed value (if any) together with the
map without `k`. -/
def dictPop (m : List (List Char × Nat)) (k : List Char) :
    Option Nat × List (List Char × Nat) :=
  match m with
  | [] => (none, [])
  | kv :: rest =>
    if kv.1 = k then (some kv.2, rest)
    else
      let r := dictPop rest k
      (r.1, kv :: r.2)

/-- Embedding of `DatabaseRegistry.close_database(name)`: raises `KeyError`
when the alias is not configured; otherwise pops the manager (if any) and
closes it.  The closed manager is returned for observation. -/
def close_database (r : Registry) (name : List Char) :
    Except (List Char) (Registry × Option Nat) :=
  if name ∈ r.configs then
    let p := dictPop r.managers name
    .ok ({ r with managers := p.2 }, p.1)
  else .error ("Unknown database ".data ++ name)

/-! Theorems for claims C2, C3, C9 and C10. -/

/-- Helper: a `dictPop` of a key absent from the map removes nothing. -/
theorem dictPop_not_mem (m : List (List Char × Nat)) (k : List Char)
    (h : ∀ kv ∈ m, kv.1 ≠ k) : dictPop m k = (none, m) := by
  induction m with
  | nil => rfl
  | cons kv rest ih =>
    have hk : kv.1 ≠ k := h kv (by simp)
    simp only [dictPop, if_neg hk]
    rw [ih (fun kv2 h2 => h kv2 (by simp [h2]))]

/-- C2: when the SQL passes read-mode validation, the text dispatched to the
database handle is exactly `SELECT TOP (L+1) * FROM (<sql>) AS
_limited_query` with `L = max(1, min(limit, 10000))`; in particular
`limit = 0` clamps to `1` and `limit = 20000` clamps to `10000`. -/
theorem c2_theorem {α : Type} (sql : List Char) (limit : Int)
    (desc : Option (List (List Char))) (raw : List (List α))
    (hv : (validate_query sql false).1 = true) :
    dispatchedOf (execute_query_tool sql limit desc raw) =
      some ("SELECT TOP ".data ++ (toString (clampLimit limit + 1)).data ++
        " * FROM (".data ++ sql ++ ") AS _limited_query".data) ∧
    clampLimit 0 = 1 ∧ clampLimit 20000 = 10000 := by
  refine ⟨?_, by decide, by decide⟩
  rcases hveq : validate_query sql false with ⟨b, e⟩
  rw [hveq] at hv
  subst hv
  simp [execute_query_tool, hveq, dispatchedOf, inject_top_clause]

/-- Witness for C2 at `sql = "SELECT 1"`, `limit = 0`. -/
theorem c2_witness :
    (validate_query "SELECT 1".data false).1 = true ∧
    (dispatchedOf (execute_query_tool "SELECT 1".data 0 none ([] : List (List Nat))) =
      some ("SELECT TOP ".data ++ (toString (clampLimit 0 + 1)).data ++
        " * FROM (".data ++ "SELECT 1".data ++ ") AS _limited_query".data) ∧
    clampLimit 0 = 1 ∧ clampLimit 20000 = 10000) :=
  ⟨by decide, c2_theorem "SELECT 1".data 0 none [] (by decide)⟩

/-- C3: for a successful `execute_query` with clamped limit `L`: when the
executed (TOP `L+1`) query materialises more than `L` rows the result is
truncated to the first `L` rows with `truncated = true` and `row_count = L`;
otherwise all `n ≤ L` rows are returned with `truncated = false` and
`row_count = n`. -/
theorem c3_theorem {α : Type} (sql : List Char) (limit : Int)
    (desc : Option (List (List Char))) (raw : List (List α))
    (hv : (validate_query sql false).1 = true) :
    ((db_execute_query desc raw).length > (clampLimit limit).toNat →
      execute_query_tool sql limit desc raw =
        .ok (inject_top_clause sql (clampLimit limit))
          ((((db_execute_query desc raw).take (clampLimit limit).toNat).headD []).map
            (fun kv => kv.1))
          ((db_execute_query desc raw).take (clampLimit limit).toNat)
          (clampLimit limit).toNat true) ∧
    ((db_execute_query desc raw).length ≤ (clampLimit limit).toNat →
      execute_query_tool sql limit desc raw =
        .ok (inject_top_clause sql (clampLimit limit))
          (((db_execute_query desc raw).headD []).map (fun kv => kv.1))
          (db_execute_query desc raw) (db_execute_query desc raw).length false) := by
  rcases hveq : validate_query sql false with ⟨b, e⟩
  rw [hveq] at hv
  subst hv
  constructor
  · intro h
    have ht : decide ((db_execute_query desc raw).length > (clampLimit limit).toNat)
        = true := decide_eq_true h
    simp [execute_query_tool, hveq, ht, List.length_take,
      Nat.min_eq_left (Nat.le_of_lt h)]
  · intro h
    have ht : decide ((db_execute_query desc raw).length > (clampLimit limit).toNat)
        = false := decide_eq_false (Nat.not_lt.mpr h)
    simp [execute_query_tool, hveq, ht]

/-- Witness for C3: three materialised rows against a clamped limit of 2. -/
theorem c3_witness :
    (validate_query "SELECT 1".data false).1 = true ∧
    (db_execute_query (some ["A".data]) [[1], [2], [3]]).length >
      (clampLimit 2).toNat ∧
    execute_query_tool "SELECT 1".data 2 (some ["A".data])
        ([[1], [2], [3]] : List (List Nat)) =
      .ok (inject_top_clause "SELECT 1".data (clampLimit 2))
        ((((db_execute_query (some ["A".data])
            ([[1], [2], [3]] : List (List Nat))).take (clampLimit 2).toNat).headD []).map
          (fun kv => kv.1))
        ((db_execute_query (some ["A".data])
          ([[1], [2], [3]] : List (List Nat))).take (clampLimit 2).toNat)
        (clampLimit 2).toNat true :=
  ⟨by decide, by decide,
    ( c3_theorem "SELECT 1".data 2 (some ["A".data]) [[1], [2], [3]]
      (by decide)).1 (by decide)⟩

/-- C9: a successful `execute_query` whose statement materialises zero rows
returns success with empty `columns` (even under a non-empty driver column
description), empty `rows`, `row_count = 0` and `truncated = false` — the
column list is projected from the keys of the first materialised row. -/
theorem c9_theorem {α : Type} (sql : List Char) (limit : Int)
    (cols : List (List Char)) (hv : (validate_query sql false).1 = true)
    (_hc : cols ≠ []) :
    execute_query_tool sql limit (some cols) ([] : List (List α)) =
      .ok (inject_top_clause sql (clampLimit limit)) [] [] 0 false := by
  rcases hveq : validate_query sql false with ⟨b, e⟩
  rw [hveq] at hv
  subst hv
  simp [execute_query_tool, hveq, db_execute_query]

/-- Witness for C9 at `sql = "SELECT 1"`, one described column, no rows. -/
theorem c9_witness :
    (validate_query "SELECT 1".data false).1 = true ∧
    (["A".data] : List (List Char)) ≠ [] ∧
    execute_query_tool "SELECT 1".data 7 (some ["A".data])
        ([] : List (List Nat)) =
      .ok (inject_top_clause "SELECT 1".data (clampLimit 7)) [] [] 0 false :=
  ⟨by decide, by decide,
    c9_theorem "SELECT 1".data 7 ["A".data] (by decide) (by decide)⟩

/-- C10: closing a configured alias with no materialised handle succeeds,
closes nothing and leaves the registry (configuration included) unchanged; a
configured alias never raises; an unconfigured alias raises `KeyError`. -/
theorem c10_theorem (r : Registry) (name : List Char) :
    (name ∈ r.configs → (∀ kv ∈ r.managers, kv.1 ≠ name) →
      close_database r name = .ok (r, none)) ∧
    (name ∈ r.configs → ∀ r2 h, close_database r name = .ok (r2, h) →
      r2.configs = r.configs) ∧
    (name ∉ r.configs →
      close_database r name = .error ("Unknown database ".data ++ name)) := by
  refine ⟨fun hmem hnone => ?_, fun hmem r2 h heq => ?_, fun hmem => ?_⟩
  · simp only [close_database, if_pos hmem, dictPop_not_mem r.managers name hnone]
  · simp only [close_database, if_pos hmem, Except.ok.injEq, Prod.mk.injEq] at heq
    rw [← heq.1]
  · simp only [close_database, if_neg hmem]

/-- Witness for C10: a registry with aliases `default`, `a` where only
`default` has a materialised handle. -/
theorem c10_witness :
    ("a".data ∈ (Registry.mk ["default".data, "a".data]
        [("default".data, 0)]).configs) ∧
    (∀ kv ∈ (Registry.mk ["default".data, "a".data]
        [("default".data, 0)]).managers, kv.1 ≠ "a".data) ∧
    close_database (Registry.mk ["default".data, "a".data]
        [("default".data, 0)]) "a".data =
      .ok (Registry.mk ["default".data, "a".data] [("default".data, 0)], none) :=
  ⟨by decide, by decide,
    ( c10_theorem (Registry.mk ["default".data, "a".data]
      [("default".data, 0)]) "a".data).1 (by decide) (by decide)⟩

/-! Memoisation cache keys (`cache.py`, `tools/schema_discovery.py`). -/

/-- Python lexicographic `<` on strings (compared by code point). -/
def listLt : List Char → List Char → Bool
  | [], [] => false
  | [], _ :: _ => true
  | _ :: _, [] => false
  | a :: as, b :: bs => decide (a < b) || (decide (a = b) && listLt as bs)

/-- Python lexicographic `<=` on strings. -/
def listLe (a b : List Char) : Bool := listLt a b || decide (a = b)

/-- Python `<=` on `(key, value)` pairs of strings (tuple comparison). -/
def pairLe (x y : List Char × List Char) : Prop :=
  listLt x.1 y.1 = true ∨ (x.1 = y.1 ∧ listLe x.2 y.2 = true)

instance : DecidableRel pairLe := fun x y => by unfold pairLe; infer_instance

theorem listLt_irrefl (a : List Char) : listLt a a = false := by
  induction a with
  | nil => rfl
  | cons c cs ih => simp [listLt, ih]

theorem listLt_trans : ∀ {a b c : List Char},
    listLt a b = true → listLt b c = true → listLt a c = true
  | a, [], _, hab, _ => by cases a <;> simp [listLt] at hab
  | _, _ :: _, [], _, hbc => by simp [listLt] at hbc
  | [], _ :: _, _ :: _, _, _ => rfl
  | x :: xs, y :: ys, z :: zs, hab, hbc => by
    simp only [listLt, Bool.or_eq_true, Bool.and_eq_true, decide_eq_true_eq] at hab hbc ⊢
    rcases hab with h1 | ⟨h1, h1'⟩
    · rcases hbc with h2 | ⟨h2, h2'⟩
      · exact Or.inl (lt_trans h1 h2)
      · exact Or.inl (h2 ▸ h1)
    · rcases hbc with h2 | ⟨h2, h2'⟩
      · exact Or.inl (h1 ▸ h2)
      · exact Or.inr ⟨h1.trans h2, listLt_trans h1' h2'⟩

theorem listLt_connex : ∀ {a b : List Char},
    listLt a b = false → listLt b a = false → a = b
  | [], [], _, _ => rfl
  | [], _ :: _, hab, _ => by simp [listLt] at hab
  | _ :: _, [], _, hba => by simp [listLt] at hba
  | x :: xs, y :: ys, hab, hba => by
    simp only [listLt, Bool.or_eq_false_iff, Bool.and_eq_false_iff,
      decide_eq_false_iff_not] at hab hba
    rcases lt_trichotomy x y with h | h | h
    · exact absurd h hab.1
    · subst h
      rcases hab.2 with h2 | h2
      · exact absurd rfl h2
      · rcases hba.2 with h3 | h3
        · exact absurd rfl h3
        · rw [listLt_connex h2 h3]
    · exact absurd h hba.1

theorem listLe_total (a b : List Char) : listLe a b = true ∨ listLe b a = true := by
  by_cases h1 : listLt a b = true
  · exact Or.inl (by simp [listLe, h1])
  · by_cases h2 : listLt b a = true
    · exact Or.inr (by simp [listLe, h2])
    · have := listLt_connex (Bool.eq_false_iff.mpr h1) (Bool.eq_false_iff.mpr h2)
      exact Or.inl (by simp [listLe, this])

theorem listLe_antisymm {a b : List Char}
    (h1 : listLe a b = true) (h2 : listLe b a = true) : a = b := by
  simp only [listLe, Bool.or_eq_true, decide_eq_true_eq] at h1 h2
  rcases h1 with h1 | h1
  · rcases h2 with h2 | h2
    · have := listLt_trans h1 h2
      rw [listLt_irrefl a] at this
      cases this
    · exact h2.symm
  · exact h1

theorem listLe_trans {a b c : List Char}
    (h1 : listLe a b = true) (h2 : listLe b c = true) : listLe a c = true := by
  simp only [listLe, Bool.or_eq_true, decide_eq_true_eq] at h1 h2 ⊢
  rcases h1 with h1 | h1
  · rcases h2 with h2 | h2
    · exact Or.inl (listLt_trans h1 h2)
    · exact Or.inl (h2 ▸ h1)
  · exact h1 ▸ h2

instance : IsTotal (List Char × List Char) pairLe := by
  constructor
  intro x y
  by_cases h1 : listLt x.1 y.1 = true
  · exact Or.inl (Or.inl h1)
  · by_cases h2 : listLt y.1 x.1 = true
    · exact Or.inr (Or.inl h2)
    · have hk := listLt_connex (Bool.eq_false_iff.mpr h1) (Bool.eq_false_iff.mpr h2)
      rcases listLe_total x.2 y.2 with h | h
      · exact Or.inl (Or.inr ⟨hk, h⟩)
      · exact Or.inr (Or.inr ⟨hk.symm, h⟩)

instance : IsTrans (List Char × List Char) pairLe := by
  constructor
  intro x y z h1 h2
  rcases h1 with h1 | ⟨he1, hv1⟩
  · rcases h2 with h2 | ⟨he2, _⟩
    · exact Or.inl (listLt_trans h1 h2)
    · exact Or.inl (he2 ▸ h1)
  · rcases h2 with h2 | ⟨he2, hv2⟩
    · exact Or.inl (he1 ▸ h2)
    · exact Or.inr ⟨he1.trans he2, listLe_trans hv1 hv2⟩

instance : IsAntisymm (List Char × List Char) pairLe := by
  constructor
  intro x y h1 h2
  rcases h1 with h1 | ⟨he1, hv1⟩
  · rcases h2 with h2 | ⟨he2, _⟩
    · have := listLt_trans h1 h2
      rw [listLt_irrefl] at this
      cases this
    · rw [he2, listLt_irrefl] at h1
      cases h1
  · rcases h2 with h2 | ⟨he2, hv2⟩
    · rw [he1, listLt_irrefl] at h2
      cases h2
    · have hv := listLe_antisymm hv1 hv2
      exact Prod.ext he1 hv

/-- Python `sorted(kwargs.items())`: sort the keyword-argument pairs by the
tuple order. -/
def sortKwargs (kw : List (List Char × List Char)) : List (List Char × List Char) :=
  kw.insertionSort pairLe

/-- One `f"{k}={v}"` key part. -/
def fmtKwarg (kv : List Char × List Char) : List Char := kv.1 ++ '=' :: kv.2

/-- Python `":".join(parts)`. -/
def joinColon : List (List Char) → List Char
  | [] => []
  | [p] => p
  | p :: ps => p ++ ':' :: joinColon ps

/-- Embedding of the cache-key construction in the `cached` decorator:
`[key_prefix or func.__name__] + [str(a) for a in args] +
[f"{k}={v}" for k, v in sorted(kwargs.items())]` joined with `:`. -/
def cache_key (keyPart0 : List Char) (args : List (List Char))
    (kwargs : List (List Char × List Char)) : List Char :=
  joinColon (keyPart0 :: (args ++ (sortKwargs kwargs).map fmtKwarg))

/-- Cache key of `_list_tables_cached(schema, database=database)`
(`key_prefix="list_tables"`, one positional argument, one keyword
argument). -/
def list_tables_cache_key (schema : List Char) (database : List Char) : List Char :=
  cache_key "list_tables".data [schema] [("database".data, database)]

/-- Sorting the keyword arguments is invariant under permutation of how they
were supplied: the sorted list of a permutation is identical, hence so is the
cache key. -/
theorem cache_key_perm (p : List Char) (args : List (List Char))
    {kw1 kw2 : List (List Char × List Char)} (hperm : kw1.Perm kw2) :
    cache_key p args kw1 = cache_key p args kw2 := by
  have hs : sortKwargs kw1 = sortKwargs kw2 :=
    List.eq_of_perm_of_sorted
      ((List.perm_insertionSort pairLe kw1).trans
        (hperm.trans (List.perm_insertionSort pairLe kw2).symm))
      (List.sorted_insertionSort pairLe kw1) (List.sorted_insertionSort pairLe kw2)
  unfold cache_key
  rw [hs]

/-- Inserting a `database` entry into a sorted list whose keys all differ from
`database` lands at a position independent of the entry's value. -/
theorem orderedInsert_db (L : List (List Char × List Char)) (v1 v2 : List Char)
    (h : ∀ kv ∈ L, kv.1 ≠ "database".data) :
    ∃ P S, L.orderedInsert pairLe ("database".data, v1) =
        P ++ ("database".data, v1) :: S ∧
      L.orderedInsert pairLe ("database".data, v2) =
        P ++ ("database".data, v2) :: S := by
  induction L with
  | nil => exact ⟨[], [], rfl, rfl⟩
  | cons y L2 ih =>
    have hy : y.1 ≠ "database".data := h y (by simp)
    have hiff : ∀ v : List Char,
        pairLe ("database".data, v) y ↔ listLt "database".data y.1 = true := by
      intro v
      constructor
      · rintro (h1 | ⟨h1, _⟩)
        · exact h1
        · exact absurd h1.symm hy
      · exact fun h1 => Or.inl h1
    by_cases hlt : listLt "database".data y.1 = true
    · refine ⟨[], y :: L2, ?_, ?_⟩ <;>
        simp only [List.orderedInsert, if_pos ((hiff _).mpr hlt), List.nil_append]
    · obtain ⟨P, S, e1, e2⟩ := ih (fun kv hk => h kv (by simp [hk]))
      refine ⟨y :: P, S, ?_, ?_⟩ <;>
        simp only [List.orderedInsert, if_neg (fun hc => hlt ((hiff _).mp hc)),
          e1, e2, List.cons_append]

/-- Unfolding of `joinColon` on a cons with a non-empty tail. -/
theorem joinColon_cons (p : List Char) (ps : List (List Char)) (h : ps ≠ []) :
    joinColon (p :: ps) = p ++ ':' :: joinColon ps := by
  cases ps with
  | nil => exact absurd rfl h
  | cons q qs => rfl

/-- Joining with `:` separates distinct entries at an aligned position. -/
theorem joinColon_ne (A : List (List Char)) (x y : List Char)
    (D : List (List Char)) (hxy : x ≠ y) :
    joinColon (A ++ x :: D) ≠ joinColon (A ++ y :: D) := by
  induction A with
  | nil =>
    cases D with
    | nil => simpa [joinColon] using hxy
    | cons d ds =>
      intro he
      simp only [List.nil_append] at he
      rw [joinColon_cons x (d :: ds) (by simp),
        joinColon_cons y (d :: ds) (by simp)] at he
      exact hxy (List.append_cancel_right he)
  | cons a A2 ih =>
    intro he
    rw [List.cons_append, List.cons_append,
      joinColon_cons a (A2 ++ x :: D) (by simp),
      joinColon_cons a (A2 ++ y :: D) (by simp)] at he
    have h2 := List.append_cancel_left he
    injection h2 with _ h3
    exact ih h3

/-- Two `k=v` key parts with the same key and different values differ. -/
theorem fmtKwarg_ne (k v1 v2 : List Char) (h : v1 ≠ v2) :
    fmtKwarg (k, v1) ≠ fmtKwarg (k, v2) := by
  intro he
  have h2 := List.append_cancel_left he
  injection h2 with _ h3
  exact h h3

/-- C7: the memoisation cache key is independent of the order in which the
keyword arguments are supplied (they are sorted by name), and two calls that
differ only in the value of the `database` keyword argument always produce
distinct cache keys. -/
theorem c7_theorem (p : List Char) (args : List (List Char))
    (kw1 kw2 : List (List Char × List Char)) :
    (kw1.Perm kw2 → cache_key p args kw1 = cache_key p args kw2) ∧
    (∀ pre post v1 v2,
      kw1 = pre ++ ("database".data, v1) :: post →
      kw2 = pre ++ ("database".data, v2) :: post →
      (kw1.map Prod.fst).Nodup → v1 ≠ v2 →
      cache_key p args kw1 ≠ cache_key p args kw2) := by
  constructor
  · exact fun hperm => cache_key_perm p args hperm
  · rintro pre post v1 v2 rfl rfl hnd hne
    have h1 : (List.map Prod.fst pre ++
        "database".data :: List.map Prod.fst post).Nodup := by
      simpa using hnd
    have h2 : ("database".data ::
        (List.map Prod.fst pre ++ List.map Prod.fst post)).Nodup :=
      List.nodup_middle.mp h1
    have hnotin := (List.nodup_cons.mp h2).1
    rw [cache_key_perm p args List.perm_middle,
      cache_key_perm p args List.perm_middle]
    set R := pre ++ post with hR
    have hkeys : ∀ kv ∈ (List.insertionSort pairLe R), kv.1 ≠ "database".data := by
      intro kv hk heq
      have hkR : kv ∈ R := (List.mem_insertionSort pairLe).mp hk
      have : kv.1 ∈ R.map Prod.fst := List.mem_map_of_mem Prod.fst hkR
      rw [heq] at this
      have : "database".data ∈ List.map Prod.fst pre ++ List.map Prod.fst post := by
        simpa [hR] using this
      exact absurd this hnotin
    obtain ⟨P, S, e1, e2⟩ :=
      orderedInsert_db (List.insertionSort pairLe R) v1 v2 hkeys
    unfold cache_key sortKwargs
    have hins : ∀ v : List Char,
        List.insertionSort pairLe (("database".data, v) :: R) =
          (List.insertionSort pairLe R).orderedInsert pairLe ("database".data, v) :=
      fun v => rfl
    rw [hins v1, hins v2, e1, e2, List.map_append, List.map_cons,
      List.map_append, List.map_cons]
    intro he
    have he2 : joinColon ((p :: (args ++ List.map fmtKwarg P)) ++
        fmtKwarg ("database".data, v1) :: List.map fmtKwarg S) =
      joinColon ((p :: (args ++ List.map fmtKwarg P)) ++
        fmtKwarg ("database".data, v2) :: List.map fmtKwarg S) := by
      simpa [List.append_assoc] using he
    exact joinColon_ne _ _ _ _ (fmtKwarg_ne _ _ _ hne) he2

/-- Witness for C7: swapped keyword order gives the same key; distinct
`database` values give distinct keys for the `list_tables` cache. -/
theorem c7_witness :
    (([(("a".data : List Char), "1".data), ("b".data, "2".data)]).Perm
      [(("b".data : List Char), "2".data), ("a".data, "1".data)]) ∧
    cache_key "f".data [] [("a".data, "1".data), ("b".data, "2".data)] =
      cache_key "f".data [] [("b".data, "2".data), ("a".data, "1".data)] ∧
    list_tables_cache_key "None".data "a".data ≠
      list_tables_cache_key "None".data "b".data := by
  refine ⟨by decide, ?_, ?_⟩
  · exact ( c7_theorem "f".data [] [("a".data, "1".data), ("b".data, "2".data)]
      [("b".data, "2".data), ("a".data, "1".data)]).1 (by decide)
  · exact ( c7_theorem "list_tables".data ["None".data]
      [("database".data, "a".data)] [("database".data, "b".data)]).2
      [] [] "a".data "b".data rfl rfl (by decide) (by decide)

/-! Connection pool (`pool.py`).  The pool is modelled as a state machine:
counters are `Int` (Python integers), the parked queue is counted by size,
and the ghost field `held` counts entries currently checked out by callers.
Environment nondeterminism (whether the queue yields in time, whether the
driver connects, whether a connection is stale/idle/unhealthy, whether a
rollback succeeds) enters through explicit event/oracle records. -/

/-- State of a `ConnectionPool`.  `parked` is `_pool.qsize()`, `created` is
`_created_count`, `held` is the number of entries checked out by callers
(implicit in the Python object graph). -/
structure PoolState where
  maxSize : Nat
  parked : Int
  created : Int
  held : Nat
  closed : Bool
  inUse : Int
  peak : Int
  totalAcquisitions : Int
  totalReleases : Int
  failedAcquisitions : Int
  healthChecks : Int
  transactionResets : Int
deriving DecidableEq

/-- The fresh state built by `__init__` before `_initialize_pool` runs. -/
def freshPool (maxSize : Nat) : PoolState :=
  { maxSize := maxSize, parked := 0, created := 0, held := 0, closed := false,
    inUse := 0, peak := 0, totalAcquisitions := 0, totalReleases := 0,
    failedAcquisitions := 0, healthChecks := 0, transactionResets := 0 }

/-- Whether `put_nowait` on the parked queue would raise `queue.Full`
(`Queue(maxsize)` with `maxsize = 0` meaning unbounded). -/
def queueFull (s : PoolState) : Bool :=
  decide (0 < s.maxSize) && decide ((s.maxSize : Int) ≤ s.parked)

/-- One `_initialize_pool` loop iteration: `_create_connection` (which
increments `created` under the lock only when below `max_size`, and rolls the
increment back if the driver fails) followed by `put_nowait`; every exception
is caught and logged. -/
def initAttempt (s : PoolState) (connectOk : Bool) : PoolState :=
  if (s.maxSize : Int) ≤ s.created then s
  else if connectOk then
    if queueFull { s with created := s.created + 1 } then
      { s with created := s.created + 1 }
    else { s with created := s.created + 1, parked := s.parked + 1 }
  else s

/-- `_initialize_pool`: `min_size` creation attempts, with the driver's
success for each attempt supplied by `oks` (padded with successes). -/
def initPool (maxSize minSize : Nat) (oks : List Bool) : PoolState :=
  ((oks ++ List.replicate minSize true).take minSize).foldl initAttempt
    (freshPool maxSize)

/-- Why an entry taken from the queue is retired inside `acquire`. -/
inductive RetireKind where
  | stale
  | idle
  | unhealthy
deriving DecidableEq

/-- Oracle for one iteration of the `acquire` loop: whether the bounded
`queue.get` returned an entry in time, whether that entry is retired (and
why), whether a due health check ran and passed, and whether a fresh driver
connection attempt succeeds. -/
structure AcqEvent where
  yield : Bool
  retire : Option RetireKind
  checkedHealthy : Bool
  connectOk : Bool
deriving DecidableEq

/-- Result of `acquire`. -/
inductive AcqResult where
  | success
  | timeout
  | poolClosed
deriving DecidableEq

/-- `_track_acquisition` plus `mark_used`, with the caller now holding the
entry. -/
def trackAcquisition (s : PoolState) : PoolState :=
  if s.peak < s.inUse + 1 then
    { s with totalAcquisitions := s.totalAcquisitions + 1,
             inUse := s.inUse + 1, held := s.held + 1, peak := s.inUse + 1 }
  else
    { s with totalAcquisitions := s.totalAcquisitions + 1,
             inUse := s.inUse + 1, held := s.held + 1 }

/-- One iteration of the `acquire` loop body.  Returns the new state and
whether an entry was obtained. -/
def acquireIter (s : PoolState) (e : AcqEvent) : PoolState × Bool :=
  if e.yield ∧ 0 < s.parked then
    match e.retire with
    | some .stale =>
      ({ s with parked := s.parked - 1, created := s.created - 1 }, false)
    | some .idle =>
      ({ s with parked := s.parked - 1, created := s.created - 1 }, false)
    | some .unhealthy =>
      ({ s with parked := s.parked - 1, healthChecks := s.healthChecks + 1,
                created := s.created - 1 }, false)
    | none =>
      if e.checkedHealthy then
        (trackAcquisition
          { s with parked := s.parked - 1, healthChecks := s.healthChecks + 1 },
          true)
      else (trackAcquisition { s with parked := s.parked - 1 }, true)
  else if s.created < (s.maxSize : Int) then
    if e.connectOk then
      (trackAcquisition { s with created := s.created + 1 }, true)
    else ({ s with failedAcquisitions := s.failedAcquisitions + 1 }, false)
  else (s, false)

/-- The `acquire` retry loop; running out of events is the deadline expiring,
which increments `failed_acquisitions` and raises `TimeoutError`. -/
def acquireGo (s : PoolState) : List AcqEvent → PoolState × AcqResult
  | [] => ({ s with failedAcquisitions := s.failedAcquisitions + 1 }, .timeout)
  | e :: es =>
    if (acquireIter s e).2 then ((acquireIter s e).1, .success)
    else acquireGo (acquireIter s e).1 es

/-- Embedding of `ConnectionPool.acquire`: on a closed pool it raises
`RuntimeError("Pool is closed")` before touching any state. -/
def acquire (s : PoolState) (evts : List AcqEvent) : PoolState × AcqResult :=
  if s.closed then (s, .poolClosed) else acquireGo s evts

/-- Oracle for `release`: whether the entry is stale, and whether the
driver `rollback` in `_reset_connection` succeeds. -/
structure RelEvent where
  stale : Bool
  rollbackOk : Bool
deriving DecidableEq

/-- Embedding of `ConnectionPool.release(entry)`: bump `total_releases`,
floor-decrement `in_use`; a closed pool, a stale entry, or a failed rollback
closes the entry (`created` decremented); otherwise `transaction_resets` is
bumped and the entry is re-parked unless the queue is full (then it is
closed). -/
def release (s : PoolState) (o : RelEvent) : PoolState :=
  if s.closed then
    { s with totalReleases := s.totalReleases + 1, inUse := max 0 (s.inUse - 1),
             held := s.held - 1, created := s.created - 1 }
  else if o.stale then
    { s with totalReleases := s.totalReleases + 1, inUse := max 0 (s.inUse - 1),
             held := s.held - 1, created := s.created - 1 }
  else if !o.rollbackOk then
    { s with totalReleases := s.totalReleases + 1, inUse := max 0 (s.inUse - 1),
             held := s.held - 1, created := s.created - 1 }
  else if queueFull s then
    { s with totalReleases := s.totalReleases + 1, inUse := max 0 (s.inUse - 1),
             held := s.held - 1, transactionResets := s.transactionResets + 1,
             created := s.created - 1 }
  else
    { s with totalReleases := s.totalReleases + 1, inUse := max 0 (s.inUse - 1),
             held := s.held - 1, transactionResets := s.transactionResets + 1,
             parked := s.parked + 1 }

/-- Embedding of `ConnectionPool.close()`: set the terminal flag, drain the
parked queue and close every drained entry. -/
def closePool (s : PoolState) : PoolState :=
  { s with closed := true, parked := 0, created := s.created - s.parked }

/-- States reachable by well-formed operation sequences from a fresh pool
(release is only ever called with an entry the caller actually holds). -/
inductive PoolReach : PoolState → Prop
  | init (maxSize minSize : Nat) (oks : List Bool) :
      PoolReach (initPool maxSize minSize oks)
  | acq {s : PoolState} (evts : List AcqEvent) :
      PoolReach s → PoolReach (acquire s evts).1
  | rel {s : PoolState} (o : RelEvent) :
      PoolReach s → 0 < s.held → PoolReach (release s o)
  | cls {s : PoolState} : PoolReach s → PoolReach (closePool s)

/-- The pool invariant: sizes are non-negative, every parked or held entry is
counted by `created`, and `created` never exceeds `max_size`. -/
def PoolInv (s : PoolState) : Prop :=
  0 ≤ s.parked ∧ s.parked + (s.held : Int) ≤ s.created ∧
    s.created ≤ (s.maxSize : Int)

/-- One initialisation attempt preserves the pool invariant. -/
theorem poolInv_initAttempt {s : PoolState} (h : PoolInv s) (ok : Bool) :
    PoolInv (initAttempt s ok) := by
  obtain ⟨h1, h2, h3⟩ := h
  unfold initAttempt
  split_ifs <;> simp_all [PoolInv, queueFull] <;> omega

/-- `initAttempt` does not change `maxSize`. -/
theorem initAttempt_maxSize (s : PoolState) (ok : Bool) :
    (initAttempt s ok).maxSize = s.maxSize := by
  unfold initAttempt
  split_ifs <;> rfl

/-- The invariant holds after pool initialisation. -/
theorem poolInv_init (maxSize minSize : Nat) (oks : List Bool) :
    PoolInv (initPool maxSize minSize oks) := by
  unfold initPool
  generalize (oks ++ List.replicate minSize true).take minSize = l
  have : ∀ (l : List Bool) (s : PoolState), PoolInv s →
      PoolInv (l.foldl initAttempt s) := by
    intro l
    induction l with
    | nil => exact fun s hs => hs
    | cons b bs ih => exact fun s hs => ih _ (poolInv_initAttempt hs b)
  refine this l _ ?_
  exact ⟨le_refl 0, by simp [freshPool], by simp [freshPool]⟩

/-- One `acquire` loop iteration preserves the pool invariant. -/
theorem poolInv_acquireIter {s : PoolState} (e : AcqEvent) (h : PoolInv s) :
    PoolInv (acquireIter s e).1 := by
  obtain ⟨h1, h2, h3⟩ := h
  cases hre : e.retire with
  | none =>
    unfold acquireIter trackAcquisition
    rw [hre]
    split_ifs <;> simp_all [PoolInv] <;> omega
  | some k =>
    cases k <;>
      (unfold acquireIter trackAcquisition
       rw [hre]
       split_ifs <;> simp_all [PoolInv] <;> omega)

/-- `acquireIter` does not change the `closed` flag. -/
theorem acquireIter_closed (s : PoolState) (e : AcqEvent) :
    (acquireIter s e).1.closed = s.closed := by
  cases hre : e.retire with
  | none =>
    unfold acquireIter trackAcquisition
    rw [hre]
    split_ifs <;> rfl
  | some k =>
    cases k <;>
      (unfold acquireIter trackAcquisition
       rw [hre]
       split_ifs <;> rfl)

/-- The `acquire` loop preserves the invariant. -/
theorem poolInv_acquireGo {s : PoolState} (evts : List AcqEvent)
    (h : PoolInv s) : PoolInv (acquireGo s evts).1 := by
  induction evts generalizing s with
  | nil => exact ⟨h.1, h.2.1, h.2.2⟩
  | cons e es ih =>
    unfold acquireGo
    split_ifs with hr
    · exact poolInv_acquireIter e h
    · exact ih (poolInv_acquireIter e h)

/-- The `acquire` loop does not change the `closed` flag. -/
theorem acquireGo_closed {s : PoolState} (evts : List AcqEvent) :
    (acquireGo s evts).1.closed = s.closed := by
  induction evts generalizing s with
  | nil => rfl
  | cons e es ih =>
    unfold acquireGo
    split_ifs with hr
    · exact acquireIter_closed s e
    · exact (ih (s := (acquireIter s e).1)).trans (acquireIter_closed s e)

/-- `acquire` preserves the invariant. -/
theorem poolInv_acquire {s : PoolState} (evts : List AcqEvent)
    (h : PoolInv s) : PoolInv (acquire s evts).1 := by
  unfold acquire
  split_ifs
  · exact h
  · exact poolInv_acquireGo evts h

/-- `release` (of a held entry) preserves the invariant. -/
theorem poolInv_release {s : PoolState} (o : RelEvent) (h : PoolInv s)
    (hh : 0 < s.held) : PoolInv (release s o) := by
  obtain ⟨h1, h2, h3⟩ := h
  unfold release
  split_ifs <;> simp_all [PoolInv, queueFull] <;> omega

/-- `closePool` preserves the invariant. -/
theorem poolInv_close {s : PoolState} (h : PoolInv s) :
    PoolInv (closePool s) := by
  obtain ⟨h1, h2, h3⟩ := h
  refine ⟨le_refl 0, ?_, ?_⟩ <;> simp [closePool] <;> omega

/-- Every reachable pool state satisfies the invariant. -/
theorem poolInv_reach {s : PoolState} (h : PoolReach s) : PoolInv s := by
  induction h with
  | init maxSize minSize oks => exact poolInv_init maxSize minSize oks
  | acq evts _ ih => exact poolInv_acquire evts ih
  | rel o _ hh ih => exact poolInv_release o ih hh
  | cls _ ih => exact poolInv_close ih

/-- C4: in every reachable pool state the invariant
`0 ≤ parked_size ≤ created_count ≤ max_size` holds, and once the pool is
closed every subsequent `acquire` returns the `Pool is closed` error (not a
timeout) without touching the state; no operation ever resets the `closed`
flag. -/
theorem c4_theorem (s : PoolState) (h : PoolReach s) :
    (0 ≤ s.parked ∧ s.parked ≤ s.created ∧ s.created ≤ (s.maxSize : Int)) ∧
    (s.closed = true → ∀ evts, acquire s evts = (s, .poolClosed) ∧
      (acquire s evts).2 ≠ .timeout) ∧
    (∀ evts, (acquire s evts).1.closed = s.closed) ∧
    (∀ o, (release s o).closed = s.closed) ∧
    (closePool s).closed = true := by
  obtain ⟨h1, h2, h3⟩ := poolInv_reach h
  refine ⟨⟨h1, by omega, h3⟩, ?_, ?_, ?_, rfl⟩
  · intro hc evts
    rw [acquire, if_pos hc]
    exact ⟨rfl, by simp⟩
  · intro evts
    unfold acquire
    split_ifs with hc
    · rfl
    · exact acquireGo_closed evts
  · intro o
    unfold release
    split_ifs <;> rfl

/-- Witness for C4: a pool initialised with one connection and then closed. -/
theorem c4_witness :
    (0 ≤ (closePool (initPool 2 1 [true])).parked ∧
      (closePool (initPool 2 1 [true])).parked ≤
        (closePool (initPool 2 1 [true])).created ∧
      (closePool (initPool 2 1 [true])).created ≤
        (((closePool (initPool 2 1 [true])).maxSize : Nat) : Int)) ∧
    acquire (closePool (initPool 2 1 [true])) [] =
      (closePool (initPool 2 1 [true]), .poolClosed) := by
  have h := c4_theorem (closePool (initPool 2 1 [true]))
    (PoolReach.cls (PoolReach.init 2 1 [true]))
  exact ⟨h.1, (h.2.1 rfl []).1⟩

/-- C5: releasing a non-stale entry on an open pool whose rollback fails
closes the entry (`created_count` decremented), does not re-park it
(`parked_size` unchanged) and does not count a transaction reset; a
successful rollback counts a transaction reset and re-parks the entry unless
the queue is full, in which case the entry is closed instead.  `release` is a
total function: no exception escapes. -/
theorem c5_theorem (s : PoolState) (o : RelEvent) (hcl : s.closed = false)
    (hst : o.stale = false) :
    (o.rollbackOk = false →
      (release s o).parked = s.parked ∧
      (release s o).created = s.created - 1 ∧
      (release s o).transactionResets = s.transactionResets) ∧
    (o.rollbackOk = true →
      (release s o).transactionResets = s.transactionResets + 1 ∧
      (queueFull s = false →
        (release s o).parked = s.parked + 1 ∧
        (release s o).created = s.created) ∧
      (queueFull s = true →
        (release s o).parked = s.parked ∧
        (release s o).created = s.created - 1)) := by
  constructor
  · intro hrb
    unfold release
    simp [hcl, hst, hrb]
  · intro hrb
    unfold release
    simp only [hcl, hst, hrb, Bool.not_true, Bool.false_eq_true, if_false]
    refine ⟨?_, fun hf => ?_, fun hf => ?_⟩
    · split_ifs <;> rfl
    · rw [if_neg (by simp [hf])]
      exact ⟨rfl, rfl⟩
    · rw [if_pos hf]
      exact ⟨rfl, rfl⟩

/-- Witness for C5: a one-entry pool whose rollback fails on release. -/
theorem c5_witness :
    (release { freshPool 2 with created := 1, held := 1 }
        (RelEvent.mk false false)).parked =
      ({ freshPool 2 with created := 1, held := 1 } : PoolState).parked ∧
    (release { freshPool 2 with created := 1, held := 1 }
        (RelEvent.mk false false)).created =
      ({ freshPool 2 with created := 1, held := 1 } : PoolState).created - 1 ∧
    (release { freshPool 2 with created := 1, held := 1 }
        (RelEvent.mk false false)).transactionResets =
      ({ freshPool 2 with created := 1, held := 1 } : PoolState).transactionResets :=
  ( c5_theorem { freshPool 2 with created := 1, held := 1 }
    (RelEvent.mk false false) rfl rfl).1 rfl

/-! Audit records (`audit.py`): SQL fingerprint and preview. -/

/-- Right-hand trim: drop trailing whitespace. -/
def rightTrim (s : List Char) : List Char :=
  (s.reverse.dropWhile pyIsSpace).reverse

/-- Collapse every maximal whitespace run to one space (`prevSpace` records
whether the previous character was part of a run already emitted). -/
def collapseWsAux (prevSpace : Bool) : List Char → List Char
  | [] => []
  | c :: cs =>
    if pyIsSpace c then
      if prevSpace then collapseWsAux true cs
      else ' ' :: collapseWsAux true cs
    else c :: collapseWsAux false cs

/-- The text with every whitespace run collapsed to a single space. -/
def collapseWs (s : List Char) : List Char := collapseWsAux false s

/-- Python `" ".join(words)`. -/
def joinSpace : List (List Char) → List Char
  | [] => []
  | [w] => w
  | w :: ws => w ++ ' ' :: joinSpace ws

/-- `" ".join(sql.split())` from `_get_sql_preview`. -/
def sql_oneline (sql : List Char) : List Char := joinSpace (pyWords sql)

/-- Embedding of `_get_sql_preview(sql, max_length)`. -/
def get_sql_preview (sql : List Char) (max_length : Nat) : List Char :=
  if max_length < (sql_oneline sql).length then
    (sql_oneline sql).take max_length ++ "...".data
  else sql_oneline sql

/-! SHA-256 (the `hashlib.sha256(...).hexdigest()` call of `_hash_sql`),
implemented over `Nat` with explicit reduction mod `2^32`. -/

/-- UTF-8 encoding of one code point (Python `str.encode()`). -/
def utf8Char (c : Char) : List Nat :=
  if c.toNat < 128 then [c.toNat]
  else if c.toNat < 2048 then
    [192 + c.toNat / 64, 128 + c.toNat % 64]
  else if c.toNat < 65536 then
    [224 + c.toNat / 4096, 128 + c.toNat / 64 % 64, 128 + c.toNat % 64]
  else
    [240 + c.toNat / 262144, 128 + c.toNat / 4096 % 64, 128 + c.toNat / 64 % 64,
     128 + c.toNat % 64]

/-- UTF-8 encoding of a string as a byte list. -/
def utf8Encode (s : List Char) : List Nat := (s.map utf8Char).flatten

/-- Truncation to a 32-bit word. -/
def w32 (n : Nat) : Nat := n % 4294967296

/-- 32-bit right rotation. -/
def rotr32 (k x : Nat) : Nat := w32 ((x >>> k) ||| (x <<< (32 - k)))

/-- The eight initial SHA-256 hash values. -/
def sha256H0 : List Nat :=
  [1779033703, 3144134277, 1013904242, 2773480762, 1359893119, 2600822924,
   528734635, 1541459225]

/-- The sixty-four SHA-256 round constants. -/
def sha256K : List Nat :=
  [1116352408, 1899447441, 3049323471, 3921009573, 961987163, 1508970993,
   2453635748, 2870763221, 3624381080, 310598401, 607225278, 1426881987,
   1925078388, 2162078206, 2614888103, 3248222580, 3835390401, 4022224774,
   264347078, 604807628, 770255983, 1249150122, 1555081692, 1996064986,
   2554220882, 2821834349, 2952996808, 3210313671, 3336571891, 3584528711,
   113926993, 338241895, 666307205, 773529912, 1294757372, 1396182291,
   1695183700, 1986661051, 2177026350, 2456956037, 2730485921, 2820302411,
   3259730800, 3345764771, 3516065817, 3600352804, 4094571909, 275423344,
   430227734, 506948616, 659060556, 883997877, 958139571, 1322822218,
   1537002063, 1747873779, 1955562222, 2024104815, 2227730452, 2361852424,
   2428436474, 2756734187, 3204031479, 3329325298]

/-- Merkle–Damgård padding: `0x80`, zeros to 56 mod 64, 8-byte big-endian
bit length. -/
def sha256Pad (msg : List Nat) : List Nat :=
  msg ++ [128] ++ List.replicate ((119 - msg.length % 64) % 64) 0 ++
    [(8 * msg.length) >>> 56 % 256, (8 * msg.length) >>> 48 % 256,
     (8 * msg.length) >>> 40 % 256, (8 * msg.length) >>> 32 % 256,
     (8 * msg.length) >>> 24 % 256, (8 * msg.length) >>> 16 % 256,
     (8 * msg.length) >>> 8 % 256, (8 * msg.length) % 256]

/-- Split a byte list into 64-byte chunks (`fuel` bounds the recursion; with
`fuel ≥ length` all bytes are consumed). -/
def chunk64 : Nat → List Nat → List (List Nat)
  | _, [] => []
  | 0, _ => []
  | fuel + 1, l => l.take 64 :: chunk64 fuel (l.drop 64)

/-- Big-endian 4-byte grouping into 32-bit words. -/
def bytesToWordsBE : List Nat → List Nat
  | a :: b :: c :: d :: rest => (((a * 256 + b) * 256 + c) * 256 + d) :: bytesToWordsBE rest
  | _ => []

/-- Message-schedule small sigma 0. -/
def ssig0 (x : Nat) : Nat := w32 (rotr32 7 x ^^^ rotr32 18 x ^^^ (x >>> 3))

/-- Message-schedule small sigma 1. -/
def ssig1 (x : Nat) : Nat := w32 (rotr32 17 x ^^^ rotr32 19 x ^^^ (x >>> 10))

/-- Compression big sigma 0. -/
def bsig0 (x : Nat) : Nat := w32 (rotr32 2 x ^^^ rotr32 13 x ^^^ rotr32 22 x)

/-- Compression big sigma 1. -/
def bsig1 (x : Nat) : Nat := w32 (rotr32 6 x ^^^ rotr32 11 x ^^^ rotr32 25 x)

/-- Extend the sixteen message words by `k` further schedule words. -/
def extendW : Nat → List Nat → List Nat
  | 0, ws => ws
  | k + 1, ws =>
    extendW k (ws ++ [w32 (ssig1 (ws.getD (ws.length - 2) 0) +
      ws.getD (ws.length - 7) 0 + ssig0 (ws.getD (ws.length - 15) 0) +
      ws.getD (ws.length - 16) 0)])

/-- One SHA-256 round on the working variables `[a,b,c,d,e,f,g,h]`. -/
def compressStep (st : List Nat) (kw : Nat × Nat) : List Nat :=
  match st with
  | [a, b, c, d, e, f, g, h] =>
    (fun t1 t2 => [w32 (t1 + t2), a, b, c, w32 (d + t1), e, f, g])
      (w32 (h + bsig1 e + ((e &&& f) ^^^ ((e ^^^ 4294967295) &&& g)) + kw.1 + kw.2))
      (w32 (bsig0 a + ((a &&& b) ^^^ (a &&& c) ^^^ (b &&& c))))
  | _ => st

/-- Process one 64-byte chunk. -/
def processChunk (h : List Nat) (chunk : List Nat) : List Nat :=
  ((h.zip ((sha256K.zip (extendW 48 (bytesToWordsBE chunk))).foldl compressStep h)).map
    (fun p => w32 (p.1 + p.2)))

/-- SHA-256 of a byte list, as eight 32-bit words. -/
def sha256 (msg : List Nat) : List Nat :=
  (chunk64 (sha256Pad msg).length (sha256Pad msg)).foldl processChunk sha256H0

/-- Lowercase hexadecimal digit. -/
def hexDigit (n : Nat) : Char :=
  if n < 10 then Char.ofNat (48 + n) else Char.ofNat (87 + n)

/-- Eight-hex-digit big-endian rendering of a 32-bit word. -/
def word8Hex (w : Nat) : List Char :=
  [hexDigit (w / 268435456 % 16), hexDigit (w / 16777216 % 16),
   hexDigit (w / 1048576 % 16), hexDigit (w / 65536 % 16),
   hexDigit (w / 4096 % 16), hexDigit (w / 256 % 16),
   hexDigit (w / 16 % 16), hexDigit (w % 16)]

/-- `hashlib.sha256(bytes).hexdigest()`. -/
def sha256_hexdigest (msg : List Nat) : List Char :=
  ((sha256 msg).map word8Hex).flatten

/-- Embedding of `_hash_sql(sql)`: the first sixteen characters of the
SHA-256 hex digest of the UTF-8 bytes. -/
def hash_sql (sql : List Char) : List Char :=
  (sha256_hexdigest (utf8Encode sql)).take 16

/-- The audit-record fields claim C8 is about. -/
structure AuditRecord where
  event : List Char
  database : List Char
  sql_hash : List Char
  sql_preview : List Char

/-- The `QUERY_EXECUTED` audit record built by `AuditLogger.log_query`
(preview cap 100). -/
def log_query_record (sql db : List Char) : AuditRecord :=
  { event := "QUERY_EXECUTED".data, database := db,
    sql_hash := hash_sql sql, sql_preview := get_sql_preview sql 100 }

/-- The `VALIDATION_FAILED` audit record built by
`AuditLogger.log_validation_failure` (preview cap 50). -/
def log_validation_failure_record (sql db : List Char) : AuditRecord :=
  { event := "VALIDATION_FAILED".data, database := db,
    sql_hash := hash_sql sql, sql_preview := get_sql_preview sql 50 }

/-- The preview as claim C8 words it: whitespace runs collapsed to single
spaces (leading and trailing runs included), truncated at the cap with a
`…` suffix. -/
def claimPreviewC8 (sql : List Char) (cap : Nat) : List Char :=
  if (collapseWs sql).length ≤ cap then collapseWs sql
  else (collapseWs sql).take cap ++ ['…']

/-- The preview as amended: whitespace runs collapsed to single spaces and
leading/trailing whitespace removed, truncated at the cap with a `...`
(three ASCII dots) suffix. -/
def specPreviewC8 (sql : List Char) (cap : Nat) : List Char :=
  if (pyStrip (collapseWs sql)).length ≤ cap then pyStrip (collapseWs sql)
  else (pyStrip (collapseWs sql)).take cap ++ "...".data

/-! Equivalence of `" ".join(s.split())` with collapse-and-trim. -/

/-- A leading space never survives `pyStrip`. -/
theorem pyStrip_cons_space (x : List Char) : pyStrip (' ' :: x) = pyStrip x := by
  simp [pyStrip, List.dropWhile_cons, pyIsSpace]

/-- Collapsing in run-state equals collapsing after dropping the run. -/
theorem collapseWsAux_true (cs : List Char) :
    collapseWsAux true cs = collapseWsAux false (cs.dropWhile pyIsSpace) := by
  induction cs with
  | nil => rfl
  | cons c cs ih =>
    by_cases hc : pyIsSpace c = true
    · simp [collapseWsAux, hc, List.dropWhile_cons, ih]
    · simp [collapseWsAux, hc, List.dropWhile_cons]

/-- After a `pyStrip`, the initial run state of the collapse is irrelevant. -/
theorem pyStrip_collapseWsAux (cs : List Char) :
    pyStrip (collapseWsAux false cs) = pyStrip (collapseWsAux true cs) := by
  cases cs with
  | nil => rfl
  | cons d cs =>
    by_cases hd : pyIsSpace d = true
    · simp [collapseWsAux, hd, pyStrip_cons_space]
    · simp [collapseWsAux, hd]

/-- Splitting with a non-empty accumulated word: the word extends through the
current non-space run, then splitting restarts. -/
theorem pyWordsAux_acc (cs : List Char) : ∀ acc : List Char, acc ≠ [] →
    pyWordsAux acc cs =
      (acc.reverse ++ cs.takeWhile (fun c => !pyIsSpace c)) ::
        pyWordsAux [] (cs.dropWhile (fun c => !pyIsSpace c)) := by
  induction cs with
  | nil => intro acc hacc; simp [pyWordsAux, hacc]
  | cons c cs ih =>
    intro acc hacc
    by_cases hc : pyIsSpace c = true
    · simp [pyWordsAux, hc, hacc, List.takeWhile_cons, List.dropWhile_cons]
    · simp only [pyWordsAux, hc, if_false, Bool.false_eq_true,
        List.takeWhile_cons, List.dropWhile_cons]
      rw [ih (c :: acc) (by simp)]
      simp [hc]

/-- Splitting yields no words exactly on all-whitespace input. -/
theorem pyWordsAux_nil_iff (l : List Char) :
    pyWordsAux [] l = [] ↔ ∀ c ∈ l, pyIsSpace c = true := by
  induction l with
  | nil => simp [pyWordsAux]
  | cons c cs ih =>
    by_cases hc : pyIsSpace c = true
    · simpa [pyWordsAux, hc] using ih
    · rw [show pyWordsAux [] (c :: cs) = pyWordsAux [c] cs by simp [pyWordsAux, hc]]
      rw [pyWordsAux_acc cs [c] (by simp)]
      simp [hc]

/-- The head surviving a `dropWhile` falsifies the predicate. -/
theorem dropWhile_head_not (p : Char → Bool) (l : List Char) :
    ∀ d r, l.dropWhile p = d :: r → p d = false := by
  induction l with
  | nil => intro d r h; cases h
  | cons c cs ih =>
    intro d r h
    by_cases hc : p c = true
    · rw [List.dropWhile_cons, if_pos hc] at h
      exact ih d r h
    · rw [List.dropWhile_cons, if_neg hc] at h
      cases h
      exact Bool.eq_false_iff.mpr hc

/-- Collapse distributes over a leading all-non-space run. -/
theorem collapseWsAux_word (tw : List Char) (r : List Char)
    (h : ∀ c ∈ tw, pyIsSpace c = false) :
    collapseWsAux false (tw ++ r) = tw ++ collapseWsAux false r := by
  induction tw with
  | nil => rfl
  | cons c cs ih =>
    have hc := h c (by simp)
    simp only [List.cons_append, collapseWsAux, hc, Bool.false_eq_true, if_false]
    exact congrArg (fun t => c :: t) (ih (fun x hx => h x (by simp [hx])))

/-- Collapsing all-whitespace input in run state yields nothing. -/
theorem collapseWsAux_true_all_space (l : List Char)
    (h : ∀ c ∈ l, pyIsSpace c = true) : collapseWsAux true l = [] := by
  induction l with
  | nil => rfl
  | cons c cs ih =>
    have hc := h c (by simp)
    simp only [collapseWsAux, hc, if_true]
    exact ih (fun x hx => h x (by simp [hx]))

/-- Collapse preserves the presence of a non-space character. -/
theorem collapseWsAux_has_nonspace (l : List Char) (b : Bool)
    (h : ∃ c ∈ l, pyIsSpace c = false) :
    ∃ c ∈ collapseWsAux b l, pyIsSpace c = false := by
  induction l generalizing b with
  | nil => simp at h
  | cons c cs ih =>
    by_cases hc : pyIsSpace c = true
    · have h2 : ∃ x ∈ cs, pyIsSpace x = false := by
        obtain ⟨x, hx, hxf⟩ := h
        rcases List.mem_cons.mp hx with rfl | hx2
        · rw [hc] at hxf; cases hxf
        · exact ⟨x, hx2, hxf⟩
      cases b <;> simp only [collapseWsAux, hc, if_true]
      · obtain ⟨x, hx, hxf⟩ := ih true h2
        exact ⟨x, by simp [hx], hxf⟩
      · exact ih true h2
    · cases b <;> simp only [collapseWsAux, hc, Bool.false_eq_true, if_false] <;>
        exact ⟨c, by simp, Bool.eq_false_iff.mpr hc⟩

/-- A list with a non-space character has a non-empty right trim. -/
theorem rightTrim_ne_nil (x : List Char) (h : ∃ c ∈ x, pyIsSpace c = false) :
    rightTrim x ≠ [] := by
  intro he
  obtain ⟨c, hc, hcf⟩ := h
  unfold rightTrim at he
  rw [List.reverse_eq_nil_iff] at he
  have h3 := List.dropWhile_eq_nil_iff.mp he
  exact absurd (h3 c (by simp [hc])) (by simp [hcf])

/-- A trailing space never survives `rightTrim`. -/
theorem rightTrim_append_space (xs : List Char) :
    rightTrim (xs ++ [' ']) = rightTrim xs := by
  unfold rightTrim
  rw [List.reverse_append]
  simp [List.dropWhile_cons, pyIsSpace]

/-- `rightTrim` keeps a head character whenever it is not whitespace. -/
theorem rightTrim_cons_nonspace (c : Char) (x : List Char)
    (hc : pyIsSpace c = false) : rightTrim (c :: x) = c :: rightTrim x := by
  unfold rightTrim
  rw [show (c :: x).reverse = x.reverse ++ [c] by simp, List.dropWhile_append]
  by_cases he : (x.reverse.dropWhile pyIsSpace).isEmpty
  · rw [if_pos he]
    simp only [List.dropWhile_cons, hc, Bool.false_eq_true, if_false,
      List.dropWhile_nil]
    rw [List.isEmpty_iff.mp he]
    rfl
  · rw [if_neg he]
    simp

/-- `rightTrim` of an all-non-space list is the identity. -/
theorem rightTrim_all_nonspace (tw : List Char)
    (h : ∀ c ∈ tw, pyIsSpace c = false) : rightTrim tw = tw := by
  induction tw with
  | nil => rfl
  | cons c cs ih =>
    rw [rightTrim_cons_nonspace c cs (h c (by simp))]
    rw [ih (fun x hx => h x (by simp [hx]))]

/-- `rightTrim` only acts on the tail when the tail keeps a character. -/
theorem rightTrim_append_of_ne_nil (xs ys : List Char)
    (h : rightTrim ys ≠ []) : rightTrim (xs ++ ys) = xs ++ rightTrim ys := by
  unfold rightTrim at h ⊢
  rw [List.reverse_append, List.dropWhile_append]
  by_cases he : (ys.reverse.dropWhile pyIsSpace).isEmpty
  · rw [List.isEmpty_iff.mp he] at h
    exact absurd rfl h
  · rw [if_neg he]
    simp

/-- `pyStrip` through a non-space head is `rightTrim` of the tail. -/
theorem pyStrip_cons_nonspace (c : Char) (x : List Char)
    (hc : pyIsSpace c = false) : pyStrip (c :: x) = c :: rightTrim x := by
  show rightTrim ((c :: x).dropWhile pyIsSpace) = c :: rightTrim x
  rw [List.dropWhile_cons, if_neg (by simp [hc])]
  exact rightTrim_cons_nonspace c x hc

/-- `pyStrip` equals `rightTrim` after the left `dropWhile`. -/
theorem pyStrip_eq_rightTrim_dropWhile (s : List Char) :
    pyStrip s = rightTrim (s.dropWhile pyIsSpace) := rfl

/-- Splitting through a non-space head: the first word is the full non-space
run. -/
theorem pyWords_cons_nonspace (c : Char) (cs : List Char)
    (hc : pyIsSpace c = false) :
    pyWordsAux [] (c :: cs) =
      (c :: cs.takeWhile (fun x => !pyIsSpace x)) ::
        pyWordsAux [] (cs.dropWhile (fun x => !pyIsSpace x)) := by
  rw [show pyWordsAux [] (c :: cs) = pyWordsAux [c] cs by simp [pyWordsAux, hc]]
  rw [pyWordsAux_acc cs [c] (by simp)]
  rfl

/-- The non-space step of the preview identity, assuming the identity on the
remainder after the first word. -/
theorem oneline_nonspace_step (c : Char) (cs : List Char)
    (hc : pyIsSpace c = false)
    (ihdw : joinSpace (pyWordsAux [] (cs.dropWhile (fun x => !pyIsSpace x))) =
      pyStrip (collapseWsAux false (cs.dropWhile (fun x => !pyIsSpace x)))) :
    joinSpace (pyWordsAux [] (c :: cs)) =
      pyStrip (collapseWsAux false (c :: cs)) := by
  have htwns : ∀ x ∈ cs.takeWhile (fun x => !pyIsSpace x), pyIsSpace x = false := by
    intro x hx
    simpa using List.mem_takeWhile_imp hx
  rw [pyWords_cons_nonspace c cs hc,
    show collapseWsAux false (c :: cs) = c :: collapseWsAux false cs by
      simp [collapseWsAux, hc],
    pyStrip_cons_nonspace c _ hc]
  have hcol : collapseWsAux false cs =
      cs.takeWhile (fun x => !pyIsSpace x) ++
        collapseWsAux false (cs.dropWhile (fun x => !pyIsSpace x)) := by
    conv_lhs => rw [← List.takeWhile_append_dropWhile
      (p := fun x => !pyIsSpace x) (l := cs)]
    exact collapseWsAux_word _ _ htwns
  rw [hcol]
  obtain ⟨tw, htw⟩ : ∃ t, cs.takeWhile (fun x => !pyIsSpace x) = t := ⟨_, rfl⟩
  obtain ⟨dw, hdw⟩ : ∃ t, cs.dropWhile (fun x => !pyIsSpace x) = t := ⟨_, rfl⟩
  rw [htw] at htwns ⊢
  rw [hdw] at ihdw ⊢
  cases hdwc : dw with
  | nil =>
    subst hdwc
    rw [show collapseWsAux false ([] : List Char) = [] from rfl, List.append_nil,
      rightTrim_all_nonspace tw htwns]
    rfl
  | cons d dw2 =>
    subst hdwc
    have hd : pyIsSpace d = true := by
      have := dropWhile_head_not (fun x => !pyIsSpace x) cs d dw2 hdw
      simpa using this
    rw [show collapseWsAux false (d :: dw2) = ' ' :: collapseWsAux true dw2 by
      simp [collapseWsAux, hd]] at ihdw ⊢
    cases hw : pyWordsAux [] (d :: dw2) with
    | nil =>
      have hall := (pyWordsAux_nil_iff (d :: dw2)).mp hw
      have hall2 : ∀ x ∈ dw2, pyIsSpace x = true :=
        fun x hx => hall x (by simp [hx])
      rw [collapseWsAux_true_all_space dw2 hall2]
      rw [rightTrim_append_space tw, rightTrim_all_nonspace tw htwns]
      rfl
    | cons w ws =>
      have hns2 : ∃ x ∈ dw2, pyIsSpace x = false := by
        by_contra hcon
        push_neg at hcon
        have hnil : pyWordsAux [] (d :: dw2) = [] := by
          rw [pyWordsAux_nil_iff]
          intro x hx
          rcases List.mem_cons.mp hx with rfl | hx2
          · exact hd
          · have := hcon x hx2
            cases hb : pyIsSpace x
            · exact absurd hb this
            · rfl
        rw [hnil] at hw
        cases hw
      have hV : ∃ x ∈ collapseWsAux true dw2, pyIsSpace x = false :=
        collapseWsAux_has_nonspace dw2 true hns2
      have hVrt : rightTrim (collapseWsAux true dw2) ≠ [] :=
        rightTrim_ne_nil _ hV
      have hstep2 : rightTrim (' ' :: collapseWsAux true dw2) =
          ' ' :: rightTrim (collapseWsAux true dw2) := by
        have h4 : rightTrim ([' '] ++ collapseWsAux true dw2) =
            [' '] ++ rightTrim (collapseWsAux true dw2) :=
          rightTrim_append_of_ne_nil [' '] _ hVrt
        simpa using h4
      have hstep1 : rightTrim (tw ++ ' ' :: collapseWsAux true dw2) =
          tw ++ ' ' :: rightTrim (collapseWsAux true dw2) := by
        rw [rightTrim_append_of_ne_nil tw _ (by rw [hstep2]; simp), hstep2]
      have hVstrip : pyStrip (collapseWsAux true dw2) =
          rightTrim (collapseWsAux true dw2) := by
        rw [collapseWsAux_true, pyStrip_eq_rightTrim_dropWhile]
        cases hds : dw2.dropWhile pyIsSpace with
        | nil => rw [collapseWsAux]; rfl
        | cons e ds2 =>
          have he : pyIsSpace e = false :=
            dropWhile_head_not pyIsSpace dw2 e ds2 hds
          rw [show collapseWsAux false (e :: ds2) = e :: collapseWsAux false ds2 by
            simp [collapseWsAux, he]]
          rw [List.dropWhile_cons, if_neg (by simp [he])]
      rw [pyStrip_cons_space, hVstrip] at ihdw
      rw [hw] at ihdw
      rw [hstep1]
      rw [show joinSpace ((c :: tw) :: w :: ws) =
          (c :: tw) ++ ' ' :: joinSpace (w :: ws) from rfl]
      rw [ihdw]
      simp

/-- The central preview identity: joining the whitespace-split words with
single spaces equals collapsing whitespace runs and trimming both ends. -/
theorem oneline_eq_strip_collapse (s : List Char) :
    joinSpace (pyWordsAux [] s) = pyStrip (collapseWsAux false s) := by
  suffices H : ∀ n (s : List Char), s.length ≤ n →
      joinSpace (pyWordsAux [] s) = pyStrip (collapseWsAux false s) from
    H s.length s le_rfl
  intro n
  induction n with
  | zero =>
    intro s hs
    rw [List.length_eq_zero.mp (Nat.le_zero.mp hs)]
    rfl
  | succ n ih =>
    intro s hs
    match s with
    | [] => rfl
    | c :: cs =>
      have hcs : cs.length ≤ n := by simpa using hs
      by_cases hc : pyIsSpace c = true
      · rw [show pyWordsAux [] (c :: cs) = pyWordsAux [] cs by
          simp [pyWordsAux, hc]]
        rw [show collapseWsAux false (c :: cs) = ' ' :: collapseWsAux true cs by
          simp [collapseWsAux, hc]]
        rw [ih cs hcs, pyStrip_cons_space, pyStrip_collapseWsAux]
      · have hdwlen : (cs.dropWhile (fun x => !pyIsSpace x)).length ≤ n := by
          have h1 : (cs.dropWhile (fun x => !pyIsSpace x)).length ≤ cs.length :=
            (List.dropWhile_sublist _).length_le
          omega
        exact oneline_nonspace_step c cs (Bool.eq_false_iff.mpr hc)
          (ih _ hdwlen)

/-- Counterexample to C8 as stated: on input `" " + "A"*120` the code's
preview is the first 100 `A`s followed by three ASCII dots, not the
collapsed-only text truncated with a `…` character — leading whitespace is
dropped entirely (not collapsed to a space) and the suffix is `"..."`. -/
theorem c8_counterexample :
    (log_query_record (' ' :: List.replicate 120 'A') "default".data).sql_preview ≠
      claimPreviewC8 (' ' :: List.replicate 120 'A') 100 := by
  decide

/-- C8 (amended): every audit record's `sql_hash` is the first sixteen hex
characters of the SHA-256 digest of the UTF-8 bytes of the original SQL, and
its `sql_preview` is the SQL with whitespace runs collapsed to single spaces
and leading/trailing whitespace removed, returned whole when within the cap
(100, or 50 for validation failures) and otherwise truncated to the cap with
an ASCII `"..."` suffix. -/
theorem c8_theorem (sql db : List Char) :
    (log_query_record sql db).sql_hash =
      (sha256_hexdigest (utf8Encode sql)).take 16 ∧
    (log_validation_failure_record sql db).sql_hash =
      (sha256_hexdigest (utf8Encode sql)).take 16 ∧
    (log_query_record sql db).sql_preview = specPreviewC8 sql 100 ∧
    (log_validation_failure_record sql db).sql_preview = specPreviewC8 sql 50 := by
  have hpv : ∀ cap : Nat, get_sql_preview sql cap = specPreviewC8 sql cap := by
    intro cap
    have h : sql_oneline sql = pyStrip (collapseWs sql) :=
      oneline_eq_strip_collapse sql
    unfold get_sql_preview specPreviewC8
    rw [h]
    by_cases hl : (pyStrip (collapseWs sql)).length ≤ cap
    · rw [if_pos hl,
        if_neg (show ¬cap < (pyStrip (collapseWs sql)).length by omega)]
    · rw [if_neg hl,
        if_pos (show cap < (pyStrip (collapseWs sql)).length by omega)]
  exact ⟨rfl, rfl, hpv 100, hpv 50⟩

/-! Specification-side occurrence predicates for claim C1, and their
correspondence with the embedded regex scanners. -/

/-- The character before a match position, if any, is not a word character
(the left regex `\b` condition for a word-starting pattern). -/
def lastNotWord (pre : List Char) : Prop :=
  ∀ c, pre.getLast? = some c → wordChar c = false

/-- The character after a match, if any, is not a word character (the right
regex `\b` condition for a word-ending pattern). -/
def headNotWord (post : List Char) : Prop :=
  ∀ c, post.head? = some c → wordChar c = false

/-- A word-boundary-delimited occurrence of `pat` in `s`
(`re.search(rf"\b{pat}\b", s)` for an all-word-character `pat`). -/
def KwOccurs (s pat : List Char) : Prop :=
  ∃ pre post, s = pre ++ pat ++ post ∧ lastNotWord pre ∧ headNotWord post

/-- A case-insensitive occurrence of `pat` at a word boundary followed by at
least one word character (`re.search(rf"\b{pat}\w+", s, re.IGNORECASE)`). -/
def PfxOccurs (s pat : List Char) : Prop :=
  ∃ pre rest r, s = pre ++ rest ∧ lastNotWord pre ∧
    ciStrip pat rest = some r ∧ headIsWord r = true

theorem boundaryR_iff (l : List Char) : boundaryR l = true ↔ headNotWord l := by
  cases l with
  | nil => simp [boundaryR, headNotWord]
  | cons c r => simp [boundaryR, headNotWord]

theorem lastNotWord_nil : lastNotWord [] := by
  intro c hc
  cases hc

theorem lastNotWord_cons (c : Char) (pre : List Char) :
    lastNotWord (c :: pre) ↔
      ((pre = [] → wordChar c = false) ∧ lastNotWord pre) := by
  cases pre with
  | nil =>
    constructor
    · intro h
      exact ⟨fun _ => h c (by simp), lastNotWord_nil⟩
    · rintro ⟨h, _⟩ x hx
      simp only [List.getLast?_singleton, Option.some.injEq] at hx
      rw [← hx]
      exact h rfl
  | cons d pre2 =>
    simp only [lastNotWord, List.getLast?_cons_cons]
    constructor
    · exact fun h => ⟨fun he => absurd he (by simp), h⟩
    · exact fun h => h.2

/-- Success of `ciStrip` exhibits a case-matching prefix. -/
theorem ciStrip_some (pat : List Char) : ∀ (l r : List Char),
    ciStrip pat l = some r →
      ∃ m, l = m ++ r ∧ m.map pyLower = pat.map pyLower := by
  induction pat with
  | nil =>
    intro l r h
    simp only [ciStrip, Option.some.injEq] at h
    exact ⟨[], by simp [h], rfl⟩
  | cons p ps ih =>
    intro l r h
    cases l with
    | nil => cases h
    | cons c cs =>
      simp only [ciStrip] at h
      split_ifs at h with hcp
      obtain ⟨m, hm1, hm2⟩ := ih cs r h
      exact ⟨c :: m, by simp [hm1], by simp [hm2, hcp]⟩

/-- A case-matching prefix makes `ciStrip` succeed. -/
theorem ciStrip_of_match (pat : List Char) : ∀ (m r : List Char),
    m.map pyLower = pat.map pyLower → ciStrip pat (m ++ r) = some r := by
  induction pat with
  | nil =>
    intro m r h
    have : m = [] := by
      cases m with
      | nil => rfl
      | cons a as => cases h
    rw [this]
    rfl
  | cons p ps ih =>
    intro m r h
    cases m with
    | nil => cases h
    | cons a as =>
      simp only [List.map_cons, List.cons.injEq] at h
      simp only [List.cons_append, ciStrip, if_pos h.1]
      exact ih as r h.2

/-- The keyword scanner finds exactly the word-bounded occurrences (the
scanner's `prev` flag standing for the word-ness of the previous
character). -/
theorem kwScan_iff (pat : List Char) (hp : pat ≠ []) :
    ∀ (s : List Char) (prev : Bool),
      kwScan pat prev s = true ↔
        ∃ pre post, s = pre ++ pat ++ post ∧
          ((pre = [] → prev = false) ∧ lastNotWord pre) ∧ headNotWord post := by
  intro s
  induction s with
  | nil =>
    intro prev
    constructor
    · intro h
      cases h
    · rintro ⟨pre, post, he, _, _⟩
      have := congrArg List.length he
      simp at this
      have := List.length_pos.mpr hp
      omega
  | cons c rest ih =>
    intro prev
    simp only [kwScan, Bool.or_eq_true, Bool.and_eq_true, Bool.not_eq_true']
    constructor
    · rintro (⟨⟨hprev, hpref⟩, hbd⟩ | hrec)
      · have hpx : pat <+: c :: rest := by
          rwa [← List.isPrefixOf_iff_prefix]
        obtain ⟨post, hpost⟩ := hpx
        refine ⟨[], post, by simp [hpost.symm], ⟨fun _ => hprev, lastNotWord_nil⟩, ?_⟩
        rw [← boundaryR_iff]
        rwa [show List.drop pat.length (c :: rest) = post from by
          rw [← hpost, List.drop_left]] at hbd
      · obtain ⟨pre2, post, he, ⟨hc1, hc2⟩, hpost⟩ := (ih (wordChar c)).mp hrec
        refine ⟨c :: pre2, post, by simp [he], ⟨fun h => absurd h (by simp), ?_⟩, hpost⟩
        rw [lastNotWord_cons]
        exact ⟨fun h2 => hc1 h2, hc2⟩
    · rintro ⟨pre, post, he, ⟨hc1, hc2⟩, hpost⟩
      cases pre with
      | nil =>
        left
        simp only [List.nil_append] at he
        refine ⟨⟨hc1 rfl, ?_⟩, ?_⟩
        · rw [List.isPrefixOf_iff_prefix]
          exact ⟨post, he.symm⟩
        · rw [he, List.drop_left]
          rw [boundaryR_iff]
          exact hpost
      | cons c2 pre2 =>
        right
        simp only [List.cons_append, List.cons.injEq] at he
        obtain ⟨rfl, he2⟩ := he
        rw [lastNotWord_cons] at hc2
        exact (ih (wordChar c)).mpr ⟨pre2, post, he2, ⟨hc2.1, hc2.2⟩, hpost⟩

/-- The prefix scanner finds exactly the case-insensitive word-boundary
occurrences followed by a word character. -/
theorem pfxScan_iff (pat : List Char) (hp : pat ≠ []) :
    ∀ (s : List Char) (prev : Bool),
      pfxScan pat prev s = true ↔
        ∃ pre rest r, s = pre ++ rest ∧
          ((pre = [] → prev = false) ∧ lastNotWord pre) ∧
          ciStrip pat rest = some r ∧ headIsWord r = true := by
  intro s
  induction s with
  | nil =>
    intro prev
    constructor
    · intro h
      cases h
    · rintro ⟨pre, rest, r, he, _, hci, _⟩
      have hpre : pre = [] ∧ rest = [] := by
        constructor
        · cases pre with
          | nil => rfl
          | cons a as => cases he
        · cases pre with
          | nil =>
            cases rest with
            | nil => rfl
            | cons b bs => cases he
          | cons a as => cases he
      rw [hpre.2] at hci
      cases pat with
      | nil => exact absurd rfl hp
      | cons p ps => cases hci
  | cons c rest0 ih =>
    intro prev
    simp only [pfxScan, Bool.or_eq_true, Bool.and_eq_true, Bool.not_eq_true']
    constructor
    · rintro (⟨hprev, hmatch⟩ | hrec)
      · cases hci : ciStrip pat (c :: rest0) with
        | none => rw [hci] at hmatch; cases hmatch
        | some r =>
          rw [hci] at hmatch
          exact ⟨[], c :: rest0, r, by simp,
            ⟨fun _ => hprev, lastNotWord_nil⟩, hci, hmatch⟩
      · obtain ⟨pre2, rest2, r, he, ⟨hc1, hc2⟩, hci, hr⟩ :=
          (ih (wordChar c)).mp hrec
        refine ⟨c :: pre2, rest2, r, by simp [he],
          ⟨fun h => absurd h (by simp), ?_⟩, hci, hr⟩
        rw [lastNotWord_cons]
        exact ⟨fun h2 => hc1 h2, hc2⟩
    · rintro ⟨pre, rest, r, he, ⟨hc1, hc2⟩, hci, hr⟩
      cases pre with
      | nil =>
        left
        simp only [List.nil_append] at he
        rw [← he] at hci
        refine ⟨hc1 rfl, ?_⟩
        rw [hci]
        exact hr
      | cons c2 pre2 =>
        right
        simp only [List.cons_append, List.cons.injEq] at he
        obtain ⟨rfl, he2⟩ := he
        rw [lastNotWord_cons] at hc2
        exact (ih (wordChar c)).mpr
          ⟨pre2, rest, r, he2, ⟨hc2.1, hc2.2⟩, hci, hr⟩

/-- Whitespace characters are not word characters. -/
theorem space_not_word (a : Char) (h : pyIsSpace a = true) : wordChar a = false := by
  simp only [pyIsSpace, Bool.or_eq_true, beq_iff_eq] at h
  rcases h with ((((rfl | rfl) | rfl) | rfl) | rfl) | rfl <;> decide

/-- Injectivity of appending a final element. -/
theorem snoc_inj {xs ys : List Char} {x y : Char}
    (h : xs ++ [x] = ys ++ [y]) : xs = ys ∧ x = y := by
  have h2 := congrArg List.reverse h
  simp only [List.reverse_append, List.reverse_singleton, List.singleton_append,
    List.cons.injEq] at h2
  exact ⟨List.reverse_injective h2.2, h2.1⟩

theorem headNotWord_of_snoc {q : List Char} {x : Char}
    (h : headNotWord (q ++ [x])) : headNotWord q := by
  intro c hc
  cases q with
  | nil => cases hc
  | cons d r =>
    simp only [List.head?_cons, Option.some.injEq] at hc
    exact h c (by simp [← hc])

theorem headNotWord_snoc {q : List Char} {x : Char} (hx : wordChar x = false)
    (h : headNotWord q) : headNotWord (q ++ [x]) := by
  intro c hc
  cases q with
  | nil =>
    simp only [List.nil_append, List.head?_cons, Option.some.injEq] at hc
    rw [← hc]
    exact hx
  | cons d r =>
    simp only [List.cons_append, List.head?_cons, Option.some.injEq] at hc
    exact h c (by simp [← hc])

/-- Dropping a leading whitespace character preserves keyword occurrences. -/
theorem kwOccurs_cons_space (a : Char) (t pat : List Char)
    (ha : pyIsSpace a = true) (hp : pat ≠ [])
    (hw : ∀ c ∈ pat, wordChar c = true) :
    KwOccurs (a :: t) pat ↔ KwOccurs t pat := by
  constructor
  · rintro ⟨pre, post, he, h1, h2⟩
    cases pre with
    | nil =>
      simp only [List.nil_append] at he
      cases pat with
      | nil => exact absurd rfl hp
      | cons p ps =>
        simp only [List.cons_append, List.cons.injEq] at he
        have hpw := hw p (by simp)
        rw [← he.1, space_not_word a ha] at hpw
        cases hpw
    | cons b pre2 =>
      simp only [List.cons_append, List.cons.injEq] at he
      rw [lastNotWord_cons] at h1
      exact ⟨pre2, post, he.2, h1.2, h2⟩
  · rintro ⟨pre, post, he, h1, h2⟩
    refine ⟨a :: pre, post, by simp [he], ?_, h2⟩
    rw [lastNotWord_cons]
    exact ⟨fun _ => space_not_word a ha, h1⟩

/-- Dropping a trailing whitespace character preserves keyword
occurrences. -/
theorem kwOccurs_snoc_space (a : Char) (t pat : List Char)
    (ha : pyIsSpace a = true) (hp : pat ≠ [])
    (hw : ∀ c ∈ pat, wordChar c = true) :
    KwOccurs (t ++ [a]) pat ↔ KwOccurs t pat := by
  constructor
  · rintro ⟨pre, post, he, h1, h2⟩
    rcases List.eq_nil_or_concat post with rfl | ⟨q, x, rfl⟩
    · rcases List.eq_nil_or_concat pat with rfl | ⟨ps, pl, rfl⟩
      · exact absurd rfl hp
      · simp only [List.concat_eq_append] at hp hw he ⊢
        rw [List.append_nil, ← List.append_assoc] at he
        obtain ⟨-, hax⟩ := snoc_inj he.symm
        have hpw := hw pl (by simp)
        rw [hax, space_not_word a ha] at hpw
        cases hpw
    · simp only [List.concat_eq_append] at he h2
      rw [show pre ++ pat ++ (q ++ [x]) = (pre ++ pat ++ q) ++ [x] by
        simp [List.append_assoc]] at he
      obtain ⟨ht, hax⟩ := snoc_inj he
      exact ⟨pre, q, ht, h1, headNotWord_of_snoc h2⟩
  · rintro ⟨pre, post, he, h1, h2⟩
    exact ⟨pre, post ++ [a], by simp [he, List.append_assoc], h1,
      headNotWord_snoc (space_not_word a ha) h2⟩

/-- Dropping a leading whitespace character preserves blocked-prefix
occurrences (whitespace never case-matches the pattern's first letter). -/
theorem pfxOccurs_cons_space (a : Char) (t pat : List Char)
    (ha : pyIsSpace a = true) (hp : pat ≠ [])
    (hfirst : ∀ b p, pyIsSpace b = true → pat.head? = some p →
      pyLower b ≠ pyLower p) :
    PfxOccurs (a :: t) pat ↔ PfxOccurs t pat := by
  constructor
  · rintro ⟨pre, rest, r, he, h1, hci, hr⟩
    cases pre with
    | nil =>
      simp only [List.nil_append] at he
      cases pat with
      | nil => exact absurd rfl hp
      | cons p ps =>
        rw [← he] at hci
        simp only [ciStrip] at hci
        split_ifs at hci with hlp
        exact absurd hlp (hfirst a p ha rfl)
    | cons b pre2 =>
      simp only [List.cons_append, List.cons.injEq] at he
      rw [lastNotWord_cons] at h1
      exact ⟨pre2, rest, r, he.2, h1.2, hci, hr⟩
  · rintro ⟨pre, rest, r, he, h1, hci, hr⟩
    refine ⟨a :: pre, rest, r, by simp [he], ?_, hci, hr⟩
    rw [lastNotWord_cons]
    exact ⟨fun _ => space_not_word a ha, h1⟩

/-- Dropping a trailing whitespace character preserves blocked-prefix
occurrences. -/
theorem pfxOccurs_snoc_space (a : Char) (t pat : List Char)
    (ha : pyIsSpace a = true) :
    PfxOccurs (t ++ [a]) pat ↔ PfxOccurs t pat := by
  constructor
  · rintro ⟨pre, rest, r, he, h1, hci, hr⟩
    obtain ⟨m, rfl, hm⟩ := ciStrip_some pat rest r hci
    rcases List.eq_nil_or_concat r with rfl | ⟨r0, x, rfl⟩
    · cases hr
    · simp only [List.concat_eq_append] at he hci hr
      rw [show pre ++ (m ++ (r0 ++ [x])) = (pre ++ m ++ r0) ++ [x] by
        simp [List.append_assoc]] at he
      obtain ⟨ht, hax⟩ := snoc_inj he
      cases r0 with
      | nil =>
        simp only [List.nil_append, headIsWord] at hr
        rw [← hax, space_not_word a ha] at hr
        cases hr
      | cons c r1 =>
        refine ⟨pre, m ++ (c :: r1), c :: r1, by simp [ht, List.append_assoc],
          h1, ciStrip_of_match pat m (c :: r1) hm, ?_⟩
        simpa [headIsWord] using hr
  · rintro ⟨pre, rest, r, he, h1, hci, hr⟩
    obtain ⟨m, rfl, hm⟩ := ciStrip_some pat rest r hci
    cases r with
    | nil => cases hr
    | cons c r1 =>
      refine ⟨pre, m ++ (c :: r1 ++ [a]), c :: r1 ++ [a],
        by simp [he, List.append_assoc], h1,
        ciStrip_of_match pat m (c :: r1 ++ [a]) hm, ?_⟩
      simpa [headIsWord] using hr

/-- Every list splits into its right trim and an all-whitespace tail. -/
theorem exists_rightTrim_decomp (v : List Char) :
    ∃ ws, (∀ c ∈ ws, pyIsSpace c = true) ∧ v = rightTrim v ++ ws := by
  refine ⟨(v.reverse.takeWhile pyIsSpace).reverse, ?_, ?_⟩
  · intro c hc
    rw [List.mem_reverse] at hc
    exact List.mem_takeWhile_imp hc
  · conv_lhs => rw [show v = v.reverse.reverse by simp]
    conv_lhs => rw [show v.reverse =
      v.reverse.takeWhile pyIsSpace ++ v.reverse.dropWhile pyIsSpace from
        (List.takeWhile_append_dropWhile pyIsSpace v.reverse).symm]
    rw [List.reverse_append]
    rfl

/-- Keyword occurrences are invariant under appending whitespace. -/
theorem kwOccurs_append_spaces (t ws pat : List Char)
    (hws : ∀ c ∈ ws, pyIsSpace c = true) (hp : pat ≠ [])
    (hw : ∀ c ∈ pat, wordChar c = true) :
    KwOccurs (t ++ ws) pat ↔ KwOccurs t pat := by
  induction ws using List.reverseRecOn generalizing t with
  | nil => rw [List.append_nil]
  | append_singleton ws2 a ih =>
    rw [← List.append_assoc]
    rw [kwOccurs_snoc_space a (t ++ ws2) pat (hws a (by simp)) hp hw]
    exact ih t (fun c hc => hws c (by simp [hc]))

/-- Keyword occurrences are invariant under dropping leading whitespace. -/
theorem kwOccurs_dropWhile (u pat : List Char) (hp : pat ≠ [])
    (hw : ∀ c ∈ pat, wordChar c = true) :
    KwOccurs (u.dropWhile pyIsSpace) pat ↔ KwOccurs u pat := by
  induction u with
  | nil => rw [List.dropWhile_nil]
  | cons c cs ih =>
    by_cases hc : pyIsSpace c = true
    · rw [List.dropWhile_cons, if_pos hc]
      exact ih.trans (kwOccurs_cons_space c cs pat hc hp hw).symm
    · rw [List.dropWhile_cons, if_neg hc]

/-- Keyword occurrences are invariant under `pyStrip`. -/
theorem kwOccurs_pyStrip (u pat : List Char) (hp : pat ≠ [])
    (hw : ∀ c ∈ pat, wordChar c = true) :
    KwOccurs (pyStrip u) pat ↔ KwOccurs u pat := by
  obtain ⟨ws, hws, hdec⟩ := exists_rightTrim_decomp (u.dropWhile pyIsSpace)
  calc KwOccurs (pyStrip u) pat
      ↔ KwOccurs (rightTrim (u.dropWhile pyIsSpace) ++ ws) pat := by
        rw [pyStrip_eq_rightTrim_dropWhile]
        exact (kwOccurs_append_spaces _ ws pat hws hp hw).symm
    _ ↔ KwOccurs (u.dropWhile pyIsSpace) pat := by rw [← hdec]
    _ ↔ KwOccurs u pat := kwOccurs_dropWhile u pat hp hw

/-- Blocked-prefix occurrences are invariant under appending whitespace. -/
theorem pfxOccurs_append_spaces (t ws pat : List Char)
    (hws : ∀ c ∈ ws, pyIsSpace c = true) :
    PfxOccurs (t ++ ws) pat ↔ PfxOccurs t pat := by
  induction ws using List.reverseRecOn generalizing t with
  | nil => rw [List.append_nil]
  | append_singleton ws2 a ih =>
    rw [← List.append_assoc]
    rw [pfxOccurs_snoc_space a (t ++ ws2) pat (hws a (by simp))]
    exact ih t (fun c hc => hws c (by simp [hc]))

/-- Blocked-prefix occurrences are invariant under dropping leading
whitespace. -/
theorem pfxOccurs_dropWhile (u pat : List Char) (hp : pat ≠ [])
    (hfirst : ∀ b p, pyIsSpace b = true → pat.head? = some p →
      pyLower b ≠ pyLower p) :
    PfxOccurs (u.dropWhile pyIsSpace) pat ↔ PfxOccurs u pat := by
  induction u with
  | nil => rw [List.dropWhile_nil]
  | cons c cs ih =>
    by_cases hc : pyIsSpace c = true
    · rw [List.dropWhile_cons, if_pos hc]
      exact ih.trans (pfxOccurs_cons_space c cs pat hc hp hfirst).symm
    · rw [List.dropWhile_cons, if_neg hc]

/-- Blocked-prefix occurrences are invariant under `pyStrip`. -/
theorem pfxOccurs_pyStrip (u pat : List Char) (hp : pat ≠ [])
    (hfirst : ∀ b p, pyIsSpace b = true → pat.head? = some p →
      pyLower b ≠ pyLower p) :
    PfxOccurs (pyStrip u) pat ↔ PfxOccurs u pat := by
  obtain ⟨ws, hws, hdec⟩ := exists_rightTrim_decomp (u.dropWhile pyIsSpace)
  calc PfxOccurs (pyStrip u) pat
      ↔ PfxOccurs (rightTrim (u.dropWhile pyIsSpace) ++ ws) pat := by
        rw [pyStrip_eq_rightTrim_dropWhile]
        exact (pfxOccurs_append_spaces _ ws pat hws).symm
    _ ↔ PfxOccurs (u.dropWhile pyIsSpace) pat := by rw [← hdec]
    _ ↔ PfxOccurs u pat := pfxOccurs_dropWhile u pat hp hfirst

/-- Splitting into words ignores leading whitespace. -/
theorem pyWordsAux_dropWhile (u : List Char) :
    pyWordsAux [] (u.dropWhile pyIsSpace) = pyWordsAux [] u := by
  induction u with
  | nil => rfl
  | cons c cs ih =>
    by_cases hc : pyIsSpace c = true
    · rw [List.dropWhile_cons, if_pos hc, ih]
      simp [pyWordsAux, hc]
    · rw [List.dropWhile_cons, if_neg hc]

/-- Splitting into words ignores appended whitespace (any accumulator). -/
theorem pyWordsAux_append_spaces (t : List Char) : ∀ (acc ws : List Char),
    (∀ c ∈ ws, pyIsSpace c = true) →
    pyWordsAux acc (t ++ ws) = pyWordsAux acc t := by
  induction t with
  | nil =>
    intro acc ws hws
    induction ws generalizing acc with
    | nil => rfl
    | cons w ws2 ih =>
      have hw := hws w (by simp)
      have h2 : pyWordsAux ([] : List Char) ws2 = [] := by
        have h3 := ih [] (fun c hc => hws c (by simp [hc]))
        simpa using h3
      by_cases hacc : acc = []
      · subst hacc
        simpa [pyWordsAux, hw] using h2
      · simp [pyWordsAux, hw, hacc, h2]
  | cons c cs ih =>
    intro acc ws hws
    by_cases hc : pyIsSpace c = true
    · by_cases hacc : acc = []
      · subst hacc
        simp only [List.cons_append, pyWordsAux, hc, if_true]
        exact ih [] ws hws
      · simp only [List.cons_append, pyWordsAux, hc, if_true, if_neg hacc]
        exact congrArg (fun t => acc.reverse :: t) (ih [] ws hws)
    · simp only [List.cons_append, pyWordsAux, hc, Bool.false_eq_true, if_false]
      exact ih (c :: acc) ws hws

/-- Splitting into words is invariant under `pyStrip`. -/
theorem pyWords_pyStrip (u : List Char) : pyWords (pyStrip u) = pyWords u := by
  obtain ⟨ws, hws, hdec⟩ := exists_rightTrim_decomp (u.dropWhile pyIsSpace)
  unfold pyWords
  rw [pyStrip_eq_rightTrim_dropWhile]
  calc pyWordsAux [] (rightTrim (u.dropWhile pyIsSpace))
      = pyWordsAux [] (rightTrim (u.dropWhile pyIsSpace) ++ ws) :=
        (pyWordsAux_append_spaces _ [] ws hws).symm
    _ = pyWordsAux [] (u.dropWhile pyIsSpace) := by rw [← hdec]
    _ = pyWordsAux [] u := pyWordsAux_dropWhile u

/-- `pyStrip` is empty exactly on all-whitespace input. -/
theorem pyStrip_eq_nil_iff (s : List Char) :
    pyStrip s = [] ↔ ∀ c ∈ s, pyIsSpace c = true := by
  rw [pyStrip_eq_rightTrim_dropWhile]
  constructor
  · intro h c hc
    have h2 : (s.dropWhile pyIsSpace).reverse.dropWhile pyIsSpace = [] := by
      have := congrArg List.reverse h
      simpa [rightTrim] using this
    have h3 := List.dropWhile_eq_nil_iff.mp h2
    have hc2 : c ∈ s.takeWhile pyIsSpace ++ s.dropWhile pyIsSpace := by
      rw [List.takeWhile_append_dropWhile]
      exact hc
    rcases List.mem_append.mp hc2 with h4 | h4
    · exact List.mem_takeWhile_imp h4
    · exact h3 c (by simpa using h4)
  · intro h
    have h2 : s.dropWhile pyIsSpace = [] := by
      rw [List.dropWhile_eq_nil_iff]
      exact fun x hx => h x hx
    rw [h2]
    rfl

/-- Case-insensitive "starts with". -/
def ciStartsWith (t pat : List Char) : Bool := (ciStrip pat t).isSome

/-- The allowed first tokens for the given mode. -/
def allowedFirstWords (m : Bool) : List (List Char) :=
  if m then ALLOWED_QUERY_KEYWORDS ++ ALLOWED_STATEMENT_KEYWORDS
  else ALLOWED_QUERY_KEYWORDS

/-- Claim C1's success condition as stated: non-empty and not
whitespace-only; no word-boundary-delimited blocked keyword in the
upper-cased text; no whitespace-delimited token beginning with a blocked
prefix (case-insensitive); and an allowed first token. -/
def C1Original (sql : List Char) (m : Bool) : Prop :=
  sql ≠ [] ∧ ¬(∀ c ∈ sql, pyIsSpace c = true) ∧
  (∀ kw ∈ BLOCKED_KEYWORDS, ¬ KwOccurs (sql.map pyUpper) kw) ∧
  (∀ t ∈ pyWords sql, ∀ p ∈ blockedProcPats, ciStartsWith t p = false) ∧
  (pyWords (sql.map pyUpper)).headD [] ∈ allowedFirstWords m

/-- Claim C1's success condition as amended: the blocked-prefix clause asks
for a word-boundary occurrence of `xp_`/`sp_` followed by at least one more
word character (a bare `xp_` token is accepted). -/
def C1Amended (sql : List Char) (m : Bool) : Prop :=
  sql ≠ [] ∧ ¬(∀ c ∈ sql, pyIsSpace c = true) ∧
  (∀ kw ∈ BLOCKED_KEYWORDS, ¬ KwOccurs (sql.map pyUpper) kw) ∧
  (∀ p ∈ blockedProcPats, ¬ PfxOccurs (sql.map pyUpper) p) ∧
  (pyWords (sql.map pyUpper)).headD [] ∈ allowedFirstWords m

/-- Counterexample to C1 as stated: `"SELECT xp_"` has the token `xp_`,
which begins with the blocked prefix `xp_`, yet `validate_query` accepts it —
the code's pattern `\bxp_\w+` demands a further word character. -/
theorem c1_counterexample :
    (validate_query "SELECT xp_".data false).1 = true ∧
    ¬ C1Original "SELECT xp_".data false := by
  refine ⟨by decide, fun h => ?_⟩
  have h4 := h.2.2.2.1 "xp_".data (by decide) "xp_".data (by decide)
  rw [show ciStartsWith "xp_".data "xp_".data = true from by decide] at h4
  cases h4

/-- Facts about the blocked keywords (non-empty, all word characters). -/
theorem blocked_kw_facts : ∀ kw ∈ BLOCKED_KEYWORDS,
    kw ≠ [] ∧ ∀ c ∈ kw, wordChar c = true := by decide

/-- The blocked prefixes are non-empty and no whitespace character
case-matches their first letter. -/
theorem blocked_pfx_facts : ∀ p ∈ blockedProcPats,
    p ≠ [] ∧ ∀ b q, pyIsSpace b = true → p.head? = some q →
      pyLower b ≠ pyLower q := by
  intro p hp
  simp only [blockedProcPats, List.mem_cons, List.mem_singleton,
    List.not_mem_nil, or_false] at hp
  rcases hp with rfl | rfl <;>
    (refine ⟨by decide, ?_⟩
     intro b q hb hq
     have hq2 : q = 'x' ∨ q = 's' := by
       first
         | exact Or.inl (by simpa using hq.symm)
         | exact Or.inr (by simpa using hq.symm)
     simp only [pyIsSpace, Bool.or_eq_true, beq_iff_eq] at hb
     rcases hb with ((((rfl | rfl) | rfl) | rfl) | rfl) | rfl <;>
       rcases hq2 with rfl | rfl <;> decide)

/-- C1 (amended): `validate_query` succeeds exactly on the amended condition,
and on failure it returns `(false, reason)` with a non-empty reason rather
than raising. -/
theorem c1_theorem (sql : List Char) (m : Bool) :
    ((validate_query sql m).1 = true ↔ C1Amended sql m) ∧
    ((validate_query sql m).1 = false → (validate_query sql m).2 ≠ []) := by
  by_cases h0 : sql = [] ∨ pyStrip sql = []
  · have hv : validate_query sql m = (false, "Query cannot be empty".data) := by
      unfold validate_query
      rw [if_pos h0]
    rw [hv]
    refine ⟨⟨fun h => absurd h (by simp), fun hC => ?_⟩, fun _ => by decide⟩
    rcases h0 with h0 | h0
    · exact absurd h0 hC.1
    · exact absurd (fun c hc => (pyStrip_eq_nil_iff sql).mp h0 c hc) hC.2.1
  · have hne : sql ≠ [] := fun h => h0 (Or.inl h)
    have hnall : ¬(∀ c ∈ sql, pyIsSpace c = true) := fun hall =>
      h0 (Or.inr ((pyStrip_eq_nil_iff sql).mpr hall))
    cases hk : BLOCKED_KEYWORDS.find?
        (fun kw => kwScan kw false (pyStrip (sql.map pyUpper))) with
    | some kw =>
      have hv : validate_query sql m =
          (false, "Blocked keyword detected: ".data ++ kw) := by
        unfold validate_query
        rw [if_neg h0]
        simp only [hk]
      have hkmem := List.mem_of_find?_eq_some hk
      obtain ⟨hkne, hkw⟩ := blocked_kw_facts kw hkmem
      have hkscan : kwScan kw false (pyStrip (sql.map pyUpper)) = true := by
        have := List.find?_some hk
        simpa using this
      have hoccu : KwOccurs (sql.map pyUpper) kw := by
        rw [← kwOccurs_pyStrip (sql.map pyUpper) kw hkne hkw]
        obtain ⟨pre, post, he, ⟨_, h2⟩, h3⟩ :=
          (kwScan_iff kw hkne (pyStrip (sql.map pyUpper)) false).mp hkscan
        exact ⟨pre, post, he, h2, h3⟩
      rw [hv]
      refine ⟨⟨fun h => absurd h (by simp), fun hC => ?_⟩, fun _ => by simp⟩
      exact absurd hoccu (hC.2.2.1 kw hkmem)
    | none =>
      have hknone : ∀ kw ∈ BLOCKED_KEYWORDS, ¬ KwOccurs (sql.map pyUpper) kw := by
        intro kw hkm hocc
        obtain ⟨hkne, hkw⟩ := blocked_kw_facts kw hkm
        have hscanf := List.find?_eq_none.mp hk kw hkm
        have hocc2 := (kwOccurs_pyStrip (sql.map pyUpper) kw hkne hkw).mpr hocc
        obtain ⟨pre, post, he, h2, h3⟩ := hocc2
        exact hscanf (by
          simpa using (kwScan_iff kw hkne (pyStrip (sql.map pyUpper)) false).mpr
            ⟨pre, post, he, ⟨fun _ => rfl, h2⟩, h3⟩)
      cases hpf : blockedProcPats.find?
          (fun p => pfxScan p false (pyStrip (sql.map pyUpper))) with
      | some p =>
        have hv : validate_query sql m =
            (false, "System procedure calls not allowed: ".data ++ p ++ "*".data) := by
          unfold validate_query
          rw [if_neg h0]
          simp only [hk, hpf]
        have hpmem := List.mem_of_find?_eq_some hpf
        obtain ⟨hpne, hpfirst⟩ := blocked_pfx_facts p hpmem
        have hpscan : pfxScan p false (pyStrip (sql.map pyUpper)) = true := by
          have := List.find?_some hpf
          simpa using this
        have hoccu : PfxOccurs (sql.map pyUpper) p := by
          rw [← pfxOccurs_pyStrip (sql.map pyUpper) p hpne hpfirst]
          obtain ⟨pre, rest, r, he, ⟨_, h2⟩, hci, hr⟩ :=
            (pfxScan_iff p hpne (pyStrip (sql.map pyUpper)) false).mp hpscan
          exact ⟨pre, rest, r, he, h2, hci, hr⟩
        rw [hv]
        refine ⟨⟨fun h => absurd h (by simp), fun hC => ?_⟩, fun _ => by simp⟩
        exact absurd hoccu (hC.2.2.2.1 p hpmem)
      | none =>
        have hpnone : ∀ p ∈ blockedProcPats,
            ¬ PfxOccurs (sql.map pyUpper) p := by
          intro p hpm hocc
          obtain ⟨hpne, hpfirst⟩ := blocked_pfx_facts p hpm
          have hscanf := List.find?_eq_none.mp hpf p hpm
          have hocc2 := (pfxOccurs_pyStrip (sql.map pyUpper) p hpne hpfirst).mpr hocc
          obtain ⟨pre, rest, r, he, h2, hci, hr⟩ := hocc2
          exact hscanf (by
            simpa using (pfxScan_iff p hpne (pyStrip (sql.map pyUpper)) false).mpr
              ⟨pre, rest, r, he, ⟨fun _ => rfl, h2⟩, hci, hr⟩)
        have hwords : pyWords (pyStrip (sql.map pyUpper)) =
            pyWords (sql.map pyUpper) := pyWords_pyStrip (sql.map pyUpper)
        by_cases hmem : (pyWords (pyStrip (sql.map pyUpper))).headD [] ∈
            allowedFirstWords m
        · have hv : validate_query sql m = (true, []) := by
            unfold validate_query
            rw [if_neg h0]
            simp only [hk, hpf]
            rw [if_pos (by simpa [allowedFirstWords] using hmem)]
          rw [hv]
          refine ⟨⟨fun _ => ?_, fun _ => rfl⟩, fun h => absurd h (by simp)⟩
          exact ⟨hne, hnall, hknone, hpnone, by rw [← hwords]; exact hmem⟩
        · have hv : validate_query sql m = (false,
              "Statement type '".data ++ (pyWords (pyStrip (sql.map pyUpper))).headD [] ++
                "' not allowed".data) := by
            unfold validate_query
            rw [if_neg h0]
            simp only [hk, hpf]
            rw [if_neg (by simpa [allowedFirstWords] using hmem)]
          rw [hv]
          refine ⟨⟨fun h => absurd h (by simp), fun hC => ?_⟩, fun _ => by simp⟩
          exact absurd (by rw [hwords]; exact hC.2.2.2.2) hmem

/-- Witness for C1: both directions of the amended equivalence at concrete
inputs, and a non-empty failure reason. -/
theorem c1_witness :
    ((validate_query "DROP TABLE t".data false).1 = false ∧
      (validate_query "DROP TABLE t".data false).2 ≠ []) ∧
    C1Amended "SELECT 1".data false :=
  ⟨⟨by decide, ( c1_theorem "DROP TABLE t".data false).2 (by decide)⟩,
    ( c1_theorem "SELECT 1".data false).1.mp (by decide)⟩

/-! Error shaper (`errors.py`): the sensitive-pattern substitutions, the
simplification table, and `create_error_response`. -/

/-- The ASCII apostrophe. -/
def quoteChar : Char := Char.ofNat 39

/-- Greedy octet alternatives of the regex `\d{1,3}` at the head of `s`, in
backtracking order (3, then 2, then 1 digits): consumed length and rest. -/
def octAlts (s : List Char) : List (Nat × List Char) :=
  [3, 2, 1].filterMap (fun k =>
    if k ≤ s.length ∧ (s.take k).all Char.isDigit then some (k, s.drop k)
    else none)

/-- Expect a literal dot. -/
def dotThen : List Char → Option (List Char)
  | [] => none
  | c :: r => if c = '.' then some r else none

/-- Match `\d{1,3}\.\d{1,3}\.\d{1,3}\.\d{1,3}\b` at the head of `s` with the
regex engine's greedy backtracking order, returning the consumed length. -/
def matchIP (s : List Char) : Option Nat :=
  (octAlts s).findSome? (fun a1 =>
    (dotThen a1.2).bind (fun r1 =>
      (octAlts r1).findSome? (fun a2 =>
        (dotThen a2.2).bind (fun r2 =>
          (octAlts r2).findSome? (fun a3 =>
            (dotThen a3.2).bind (fun r3 =>
              (octAlts r3).findSome? (fun a4 =>
                if boundaryR a4.2 then
                  some (a1.1 + 1 + a2.1 + 1 + a3.1 + 1 + a4.1)
                else none)))))))

/-- The scan loop of `re.sub` for the IP pattern: `pw` is whether the
previous character is a word character (the left `\b` context); `fuel`
bounds the recursion and is at least the text length at every call. -/
def ipScanGo : Nat → Bool → List Char → List Char
  | 0, _, s => s
  | _ + 1, _, [] => []
  | fuel + 1, pw, c :: rest =>
    if pw then c :: ipScanGo fuel (wordChar c) rest
    else
      match matchIP (c :: rest) with
      | some n =>
        "[REDACTED_IP]".data ++ ipScanGo fuel true (List.drop n (c :: rest))
      | none => c :: ipScanGo fuel (wordChar c) rest

/-- `re.sub(r"\b\d{1,3}\.\d{1,3}\.\d{1,3}\.\d{1,3}\b", "[REDACTED_IP]", s)`. -/
def ipSub (s : List Char) : List Char := ipScanGo s.length false s

/-- The scan loop of `re.sub` for a context-free matcher `m` (leftmost,
non-overlapping, all occurrences). -/
def scrubGo (m : List Char → Option Nat) (repl : List Char) :
    Nat → List Char → List Char
  | 0, s => s
  | _ + 1, [] => []
  | fuel + 1, c :: rest =>
    match m (c :: rest) with
    | some n => repl ++ scrubGo m repl fuel (List.drop n (c :: rest))
    | none => c :: scrubGo m repl fuel rest

/-- `re.sub` of the pattern recognised by `m` with replacement `repl`. -/
def scrub (m : List Char → Option Nat) (repl : List Char) (s : List Char) :
    List Char := scrubGo m repl s.length s

/-- Matcher for `Login failed for user '([^']+)'` (case-insensitive) at the
head of the text. -/
def loginMatch (s : List Char) : Option Nat :=
  match ciStrip "Login failed for user '".data s with
  | none => none
  | some r =>
    match r.takeWhile (fun x => x != quoteChar) with
    | [] => none
    | cap =>
      match r.drop cap.length with
      | q :: _ =>
        if q = quoteChar then
          some ("Login failed for user '".length + cap.length + 1)
        else none
      | [] => none

/-- Matcher for `LIT([^;]+)` (case-insensitive) at the head of the text,
used for `SERVER=`, `UID=` and `PWD=`. -/
def keyEqMatch (lit : List Char) (s : List Char) : Option Nat :=
  match ciStrip lit s with
  | none => none
  | some r =>
    match r.takeWhile (fun x => x != ';') with
    | [] => none
    | cap => some (lit.length + cap.length)

/-- The four non-IP sensitive-pattern substitutions, in source order. -/
def loginSub (s : List Char) : List Char :=
  scrub loginMatch "Login failed for user '[REDACTED]'".data s

def serverSub (s : List Char) : List Char :=
  scrub (keyEqMatch "SERVER=".data) "SERVER=[REDACTED]".data s

def uidSub (s : List Char) : List Char :=
  scrub (keyEqMatch "UID=".data) "UID=[REDACTED]".data s

def pwdSub (s : List Char) : List Char :=
  scrub (keyEqMatch "PWD=".data) "PWD=[REDACTED]".data s

/-- Embedding of `sanitize_error`: the five `SENSITIVE_PATTERNS`
substitutions applied in order. -/
def sanitize_error (s : List Char) : List Char :=
  ipSub (pwdSub (uidSub (serverSub (loginSub s))))

/-- Case-insensitive search for `litB([^delim]+)litA` anywhere in the text;
on a match return `outPre ++ group1` (the `template.format(match.group(1))`
of `simplify_error`). -/
def searchCapGo (litB : List Char) (delim : Char) (litA : List Char)
    (outPre : List Char) : Nat → List Char → Option (List Char)
  | 0, _ => none
  | _ + 1, [] => none
  | fuel + 1, c :: rest =>
    match ciStrip litB (c :: rest) with
    | some r =>
      match r.takeWhile (fun x => x != delim) with
      | [] => searchCapGo litB delim litA outPre fuel rest
      | cap =>
        if (ciStrip litA (r.drop cap.length)).isSome then some (outPre ++ cap)
        else searchCapGo litB delim litA outPre fuel rest
    | none => searchCapGo litB delim litA outPre fuel rest

def searchCap (litB : List Char) (delim : Char) (litA : List Char)
    (outPre : List Char) (s : List Char) : Option (List Char) :=
  searchCapGo litB delim litA outPre s.length s

/-- Case-insensitive search for a fixed literal; on a hit return the fixed
simplified message. -/
def searchFixedGo (lit : List Char) (out : List Char) :
    Nat → List Char → Option (List Char)
  | 0, _ => none
  | _ + 1, [] => none
  | fuel + 1, c :: rest =>
    if (ciStrip lit (c :: rest)).isSome then some out
    else searchFixedGo lit out fuel rest

def searchFixed (lit : List Char) (out : List Char) (s : List Char) :
    Option (List Char) :=
  searchFixedGo lit out s.length s

/-- Embedding of `simplify_error`: the ten `ERROR_SIMPLIFICATIONS` rules
tried in insertion order; the first match wins, otherwise the text is
returned unchanged. -/
def simplify_error (s : List Char) : List Char :=
  ((searchCap "Invalid object name '".data quoteChar [quoteChar]
      "Object not found: ".data s).orElse (fun _ =>
   (searchCap "Invalid column name '".data quoteChar [quoteChar]
      "Column not found: ".data s).orElse (fun _ =>
   (searchCap "Could not find stored procedure '".data quoteChar [quoteChar]
      "Procedure not found: ".data s).orElse (fun _ =>
   (searchCap "The multi-part identifier \"".data '"'
      ('"' :: " could not be bound".data)
      "Invalid identifier: ".data s).orElse (fun _ =>
   (searchFixed "Arithmetic overflow error".data
      "Numeric overflow error".data s).orElse (fun _ =>
   (searchFixed "String or binary data would be truncated".data
      "Data too large for column".data s).orElse (fun _ =>
   (searchFixed "Violation of PRIMARY KEY constraint".data
      "Duplicate primary key".data s).orElse (fun _ =>
   (searchFixed "Violation of UNIQUE KEY constraint".data
      "Duplicate unique value".data s).orElse (fun _ =>
   (searchFixed "The INSERT statement conflicted with the FOREIGN KEY constraint".data
      "Foreign key constraint violation".data s).orElse (fun _ =>
   searchFixed "The DELETE statement conflicted with the REFERENCE constraint".data
      "Cannot delete - referenced by other records".data s))))))))))
    |>.getD s

/-- The shaped error response of `create_error_response`. -/
structure ErrorResponse where
  success : Bool
  error : List Char
  error_detail : Option (List Char)
  error_context : Option (List Char)

/-- Embedding of `create_error_response(error, context, include_details)`. -/
def create_error_response (err ctx : List Char) (include_details : Bool) :
    ErrorResponse :=
  { success := false,
    error := simplify_error (sanitize_error err),
    error_detail :=
      if include_details ∧ sanitize_error err ≠ simplify_error (sanitize_error err)
      then some (sanitize_error err) else none,
    error_context := if ctx ≠ [] then some ctx else none }

/-! Correctness layer for the IP redaction: declarative characterisation of
the regex, and the fact that the scan leaves no boundary-delimited IPv4
occurrence behind. -/

/-- Checker: scanning with left context `pw`, no position carries a
word-boundary-delimited IPv4 pattern match. -/
def noIPB : Bool → List Char → Bool
  | _, [] => true
  | pw, c :: rest =>
    if ¬pw ∧ (matchIP (c :: rest)).isSome then false
    else noIPB (wordChar c) rest

/-- A legal octet text: one to three digits. -/
def okOct (o : List Char) : Prop :=
  o ≠ [] ∧ o.length ≤ 3 ∧ o.all Char.isDigit = true

/-- Declarative reading of the IPv4 regex matching a prefix of `s` of length
`n` (with its trailing `\b`; the leading `\b` is the scanner's context). -/
def IsIPat (s : List Char) (n : Nat) : Prop :=
  ∃ o1 o2 o3 o4 r,
    s = o1 ++ '.' :: (o2 ++ '.' :: (o3 ++ '.' :: (o4 ++ r))) ∧
    okOct o1 ∧ okOct o2 ∧ okOct o3 ∧ okOct o4 ∧
    n = o1.length + o2.length + o3.length + o4.length + 3 ∧
    boundaryR r = true

theorem octAlts_mem {s : List Char} {k : Nat} {t : List Char}
    (h : (k, t) ∈ octAlts s) :
    1 ≤ k ∧ k ≤ 3 ∧ k ≤ s.length ∧ (s.take k).all Char.isDigit = true ∧
      t = s.drop k := by
  unfold octAlts at h
  rw [List.mem_filterMap] at h
  obtain ⟨a, ha, hfa⟩ := h
  have hrange : a = 3 ∨ a = 2 ∨ a = 1 := by simpa using ha
  split at hfa
  · rename_i hcond
    obtain ⟨h1, h2⟩ := hcond
    have hp := Option.some.inj hfa
    obtain ⟨rfl, rfl⟩ : a = k ∧ s.drop a = t :=
      ⟨congrArg Prod.fst hp, congrArg Prod.snd hp⟩
    exact ⟨by omega, by omega, h1, h2, rfl⟩
  · exact absurd hfa (by simp)

theorem octAlts_mem_of {s : List Char} {k : Nat} (h1 : 1 ≤ k) (h3 : k ≤ 3)
    (hl : k ≤ s.length) (hd : (s.take k).all Char.isDigit = true) :
    (k, s.drop k) ∈ octAlts s := by
  unfold octAlts
  rw [List.mem_filterMap]
  refine ⟨k, ?_, ?_⟩
  · simp only [List.mem_cons, List.mem_singleton]
    omega
  · rw [if_pos ⟨hl, hd⟩]

theorem dotThen_some {s t : List Char} (h : dotThen s = some t) :
    s = '.' :: t := by
  cases s with
  | nil => simp [dotThen] at h
  | cons c r =>
    by_cases hc : c = '.'
    · subst hc
      simp only [dotThen, if_true, eq_self_iff_true, Option.some.injEq] at h
      rw [h]
    · simp [dotThen, hc] at h

/-- A digit is a word character. -/
theorem digit_word {c : Char} (h : c.isDigit = true) : wordChar c = true := by
  simp [wordChar, Char.isAlphanum, h]

/-- Soundness of the matcher against the declarative regex reading. -/
theorem matchIP_sound {s : List Char} {n : Nat} (h : matchIP s = some n) :
    IsIPat s n := by
  unfold matchIP at h
  obtain ⟨a1, ha1, h1⟩ := List.exists_of_findSome?_eq_some h
  obtain ⟨k1, t1⟩ := a1
  obtain ⟨hk1a, hk1b, hk1l, hk1d, rfl⟩ := octAlts_mem ha1
  simp only at h1
  cases hd1 : dotThen (s.drop k1) with
  | none => rw [hd1] at h1; exact absurd h1 (by simp)
  | some r1 =>
  rw [hd1, Option.some_bind] at h1
  obtain ⟨a2, ha2, h2⟩ := List.exists_of_findSome?_eq_some h1
  obtain ⟨k2, t2⟩ := a2
  obtain ⟨hk2a, hk2b, hk2l, hk2d, rfl⟩ := octAlts_mem ha2
  simp only at h2
  cases hd2 : dotThen (r1.drop k2) with
  | none => rw [hd2] at h2; exact absurd h2 (by simp)
  | some r2 =>
  rw [hd2, Option.some_bind] at h2
  obtain ⟨a3, ha3, h3⟩ := List.exists_of_findSome?_eq_some h2
  obtain ⟨k3, t3⟩ := a3
  obtain ⟨hk3a, hk3b, hk3l, hk3d, rfl⟩ := octAlts_mem ha3
  simp only at h3
  cases hd3 : dotThen (r2.drop k3) with
  | none => rw [hd3] at h3; exact absurd h3 (by simp)
  | some r3 =>
  rw [hd3, Option.some_bind] at h3
  obtain ⟨a4, ha4, h4⟩ := List.exists_of_findSome?_eq_some h3
  obtain ⟨k4, t4⟩ := a4
  obtain ⟨hk4a, hk4b, hk4l, hk4d, rfl⟩ := octAlts_mem ha4
  simp only at h4
  split at h4
  · rename_i hbd
    have hn : n = k1 + 1 + k2 + 1 + k3 + 1 + k4 := by
      cases h4; rfl
    have e1 : s = s.take k1 ++ '.' :: r1 := by
      conv_lhs => rw [← List.take_append_drop k1 s]
      rw [dotThen_some hd1]
    have e2 : r1 = r1.take k2 ++ '.' :: r2 := by
      conv_lhs => rw [← List.take_append_drop k2 r1]
      rw [dotThen_some hd2]
    have e3 : r2 = r2.take k3 ++ '.' :: r3 := by
      conv_lhs => rw [← List.take_append_drop k3 r2]
      rw [dotThen_some hd3]
    have e4 : r3 = r3.take k4 ++ r3.drop k4 := (List.take_append_drop k4 r3).symm
    have l1 : (s.take k1).length = k1 := by
      rw [List.length_take]; omega
    have l2 : (r1.take k2).length = k2 := by
      rw [List.length_take]; omega
    have l3 : (r2.take k3).length = k3 := by
      rw [List.length_take]; omega
    have l4 : (r3.take k4).length = k4 := by
      rw [List.length_take]; omega
    refine ⟨s.take k1, r1.take k2, r2.take k3, r3.take k4, r3.drop k4,
      ?_, ?_, ?_, ?_, ?_, ?_, hbd⟩
    · rw [← e4, ← e3, ← e2]
      exact e1
    · exact ⟨List.ne_nil_of_length_pos (by omega), by omega, hk1d⟩
    · exact ⟨List.ne_nil_of_length_pos (by omega), by omega, hk2d⟩
    · exact ⟨List.ne_nil_of_length_pos (by omega), by omega, hk3d⟩
    · exact ⟨List.ne_nil_of_length_pos (by omega), by omega, hk4d⟩
    · omega
  · exact absurd h4 (by simp)

/-- Completeness of the matcher: if the declarative pattern matches some
prefix, the matcher succeeds. -/
theorem matchIP_complete {s : List Char} {n : Nat} (h : IsIPat s n) :
    matchIP s ≠ none := by
  obtain ⟨o1, o2, o3, o4, r, hs, ho1, ho2, ho3, ho4, hn, hbd⟩ := h
  intro hm
  unfold matchIP at hm
  rw [List.findSome?_eq_none_iff] at hm
  have ha1 : (o1.length, s.drop o1.length) ∈ octAlts s := by
    refine octAlts_mem_of ?_ ho1.2.1 ?_ ?_
    · have := List.length_pos.mpr ho1.1; omega
    · rw [hs]; simp
    · rw [hs, List.take_left]; exact ho1.2.2
  have h1 := hm _ ha1
  simp only at h1
  have hd1 : s.drop o1.length = '.' :: (o2 ++ '.' :: (o3 ++ '.' :: (o4 ++ r))) := by
    rw [hs, List.drop_left]
  rw [hd1] at h1
  rw [show dotThen ('.' :: (o2 ++ '.' :: (o3 ++ '.' :: (o4 ++ r))))
      = some (o2 ++ '.' :: (o3 ++ '.' :: (o4 ++ r))) from rfl,
    Option.some_bind, List.findSome?_eq_none_iff] at h1
  have ha2 : (o2.length, (o2 ++ '.' :: (o3 ++ '.' :: (o4 ++ r))).drop o2.length)
      ∈ octAlts (o2 ++ '.' :: (o3 ++ '.' :: (o4 ++ r))) := by
    refine octAlts_mem_of ?_ ho2.2.1 ?_ ?_
    · have := List.length_pos.mpr ho2.1; omega
    · simp
    · rw [List.take_left]; exact ho2.2.2
  have h2 := h1 _ ha2
  simp only [List.drop_left] at h2
  rw [show dotThen ('.' :: (o3 ++ '.' :: (o4 ++ r)))
      = some (o3 ++ '.' :: (o4 ++ r)) from rfl,
    Option.some_bind, List.findSome?_eq_none_iff] at h2
  have ha3 : (o3.length, (o3 ++ '.' :: (o4 ++ r)).drop o3.length)
      ∈ octAlts (o3 ++ '.' :: (o4 ++ r)) := by
    refine octAlts_mem_of ?_ ho3.2.1 ?_ ?_
    · have := List.length_pos.mpr ho3.1; omega
    · simp
    · rw [List.take_left]; exact ho3.2.2
  have h3 := h2 _ ha3
  simp only [List.drop_left] at h3
  rw [show dotThen ('.' :: (o4 ++ r)) = some (o4 ++ r) from rfl,
    Option.some_bind, List.findSome?_eq_none_iff] at h3
  have ha4 : (o4.length, (o4 ++ r).drop o4.length) ∈ octAlts (o4 ++ r) := by
    refine octAlts_mem_of ?_ ho4.2.1 ?_ ?_
    · have := List.length_pos.mpr ho4.1; omega
    · simp
    · rw [List.take_left]; exact ho4.2.2
  have h4 := h3 _ ha4
  simp only [List.drop_left] at h4
  rw [if_pos hbd] at h4
  exact absurd h4 (by simp)

/-- Size bounds of a declarative match. -/
theorem isIPat_len {s : List Char} {n : Nat} (h : IsIPat s n) :
    7 ≤ n ∧ n ≤ s.length := by
  obtain ⟨o1, o2, o3, o4, r, hs, ho1, ho2, ho3, ho4, hn, _⟩ := h
  have p1 := List.length_pos.mpr ho1.1
  have p2 := List.length_pos.mpr ho2.1
  have p3 := List.length_pos.mpr ho3.1
  have p4 := List.length_pos.mpr ho4.1
  have hl : s.length
      = o1.length + o2.length + o3.length + o4.length + r.length + 3 := by
    rw [hs]; simp; omega
  omega

/-- Flat decomposition of a declarative match: the matched text, its
character shape, its final digit, and the boundary after it. -/
theorem isIPat_decomp {s : List Char} {n : Nat} (h : IsIPat s n) :
    ∃ T r, s = T ++ r ∧ T.length = n ∧
      (∀ x ∈ T, x.isDigit = true ∨ x = '.') ∧
      (∃ d, T.getLast? = some d ∧ d.isDigit = true) ∧
      boundaryR r = true := by
  obtain ⟨o1, o2, o3, o4, r, hs, ho1, ho2, ho3, ho4, hn, hbd⟩ := h
  refine ⟨o1 ++ '.' :: (o2 ++ '.' :: (o3 ++ '.' :: o4)), r, ?_, ?_, ?_, ?_, hbd⟩
  · rw [hs]; simp
  · simp; omega
  · intro x hx
    simp only [List.mem_append, List.mem_cons] at hx
    have d1 := List.all_eq_true.mp ho1.2.2
    have d2 := List.all_eq_true.mp ho2.2.2
    have d3 := List.all_eq_true.mp ho3.2.2
    have d4 := List.all_eq_true.mp ho4.2.2
    rcases hx with hx | hx | hx | hx | hx | hx | hx
    · exact Or.inl (d1 x hx)
    · exact Or.inr hx
    · exact Or.inl (d2 x hx)
    · exact Or.inr hx
    · exact Or.inl (d3 x hx)
    · exact Or.inr hx
    · exact Or.inl (d4 x hx)
  · rcases List.eq_nil_or_concat o4 with h4 | ⟨ys, d, h4⟩
    · exact absurd h4 ho4.1
    · refine ⟨d, ?_, ?_⟩
      · rw [h4, List.concat_eq_append, show
          o1 ++ '.' :: (o2 ++ '.' :: (o3 ++ '.' :: (ys ++ [d])))
            = (o1 ++ '.' :: (o2 ++ '.' :: (o3 ++ '.' :: ys))) ++ [d] by simp]
        exact List.getLast?_concat _
      · have := List.all_eq_true.mp ho4.2.2 d
        apply this
        rw [h4, List.concat_eq_append]
        simp

/-- `boundaryR` only looks at the head, so a non-empty prefix screens off
the tail. -/
theorem boundaryR_append_congr {x u v : List Char} (hx : x ≠ []) :
    boundaryR (x ++ u) = boundaryR (x ++ v) := by
  cases x with
  | nil => exact absurd rfl hx
  | cons c t => rfl

/-- A declarative match that ends strictly inside a prefix is insensitive to
the text after that prefix. -/
theorem isIPat_prefix_congr {P u v : List Char} {n : Nat} (hlt : n < P.length)
    (h : IsIPat (P ++ u) n) : IsIPat (P ++ v) n := by
  obtain ⟨o1, o2, o3, o4, r, hs, ho1, ho2, ho3, ho4, hn, hbd⟩ := h
  have hs' : P ++ u = (o1 ++ '.' :: (o2 ++ '.' :: (o3 ++ '.' :: o4))) ++ r := by
    rw [hs]; simp
  have hT : (o1 ++ '.' :: (o2 ++ '.' :: (o3 ++ '.' :: o4))).length = n := by
    simp; omega
  have hTP : o1 ++ '.' :: (o2 ++ '.' :: (o3 ++ '.' :: o4)) = P.take n := by
    have h1 := congrArg (List.take n) hs'
    rw [List.take_append_of_le_length (by omega)] at h1
    rw [← hT] at h1
    rw [List.take_left] at h1
    rw [← h1, hT]
  have hr : r = P.drop n ++ u := by
    have h1 := congrArg (List.drop n) hs'
    rw [List.drop_append_of_le_length (by omega)] at h1
    conv at h1 => rhs; rw [← hT]
    rw [List.drop_left] at h1
    exact h1.symm
  have hPd : P.drop n ≠ [] := by
    intro hc
    rw [List.drop_eq_nil_iff] at hc
    omega
  refine ⟨o1, o2, o3, o4, P.drop n ++ v, ?_, ho1, ho2, ho3, ho4, hn, ?_⟩
  · have : P ++ v = (o1 ++ '.' :: (o2 ++ '.' :: (o3 ++ '.' :: o4))) ++
        (P.drop n ++ v) := by
      rw [hTP]
      conv_lhs => rw [← List.take_append_drop n P]
      rw [List.append_assoc]
    rw [this]; simp
  · have hb2 : boundaryR (List.drop n P ++ v) = boundaryR (List.drop n P ++ u) :=
      boundaryR_append_congr hPd
    rw [hb2, ← hr]
    exact hbd

/-- If the head is not a digit, the IP matcher fails. -/
theorem matchIP_none_of_head {c : Char} (t : List Char)
    (hd : c.isDigit = false) : matchIP (c :: t) = none := by
  have hoct : octAlts (c :: t) = [] := by
    unfold octAlts
    simp [List.filterMap, List.take_succ_cons, List.all_cons, hd]
  unfold matchIP
  rw [hoct]
  rfl

/-- Shape of a scan output: either the text is returned unchanged, or the
output starts with a copied prefix `A` (whose last character is not a word
character, and which is non-empty whenever the scan began with word
context), followed by the replacement token. -/
theorem ipScanGo_decomp (fuel : Nat) (pw : Bool) (s : List Char) :
    ipScanGo fuel pw s = s ∨
    ∃ A m B Z, s = A ++ B ∧ matchIP B = some m ∧
      ipScanGo fuel pw s = A ++ ("[REDACTED_IP]".data ++ Z) ∧
      (A = [] → pw = false) ∧
      (∀ x, A.getLast? = some x → wordChar x = false) := by
  induction fuel generalizing pw s with
  | zero => exact Or.inl rfl
  | succ fuel ih =>
    cases s with
    | nil => exact Or.inl rfl
    | cons c rest =>
      cases hpw : pw with
      | true =>
        have hstep : ipScanGo (fuel + 1) true (c :: rest)
            = c :: ipScanGo fuel (wordChar c) rest := by
          simp [ipScanGo]
        rcases ih (wordChar c) rest with hid | ⟨A, m, B, Z, hAB, hmB, hout, hA0, hAl⟩
        · exact Or.inl (by rw [hstep, hid])
        · refine Or.inr ⟨c :: A, m, B, Z, by rw [hAB]; rfl, hmB, ?_, ?_, ?_⟩
          · rw [hstep, hout]; rfl
          · intro hc; exact absurd hc (by simp)
          · intro x hx
            cases hA : A with
            | nil =>
              rw [hA] at hx
              simp only [List.getLast?_singleton, Option.some.injEq] at hx
              rw [← hx]
              exact hA0 hA
            | cons a as =>
              rw [hA, List.getLast?_cons_cons] at hx
              exact hAl x (by rw [hA]; exact hx)
      | false =>
        cases hm : matchIP (c :: rest) with
        | some m =>
          refine Or.inr ⟨[], m, c :: rest, ipScanGo fuel true (List.drop m (c :: rest)),
            rfl, hm, ?_, fun _ => rfl, by intro x hx; simp at hx⟩
          show ipScanGo (fuel + 1) false (c :: rest) = _
          simp only [ipScanGo, hm]
          rw [if_neg Bool.false_ne_true, List.nil_append]
        | none =>
          have hstep : ipScanGo (fuel + 1) false (c :: rest)
              = c :: ipScanGo fuel (wordChar c) rest := by
            simp only [ipScanGo, hm]
            rw [if_neg Bool.false_ne_true]
          rcases ih (wordChar c) rest with hid | ⟨A, m, B, Z, hAB, hmB, hout, hA0, hAl⟩
          · exact Or.inl (by rw [hstep, hid])
          · refine Or.inr ⟨c :: A, m, B, Z, by rw [hAB]; rfl, hmB, ?_, ?_, ?_⟩
            · rw [hstep, hout]; rfl
            · intro hc; exact absurd hc (by simp)
            · intro x hx
              cases hA : A with
              | nil =>
                rw [hA] at hx
                simp only [List.getLast?_singleton, Option.some.injEq] at hx
                rw [← hx]
                exact hA0 hA
              | cons a as =>
                rw [hA, List.getLast?_cons_cons] at hx
                exact hAl x (by rw [hA]; exact hx)

/-- Key lemma: replacing later matches cannot create a new match at a
position that had none, because the copied prefix ends in a non-word
character and the replacement token starts with a non-digit. -/
theorem matchIP_scan_none (c : Char) (fuel : Nat) (pw : Bool)
    (rest : List Char) (hnone : matchIP (c :: rest) = none) :
    matchIP (c :: ipScanGo fuel pw rest) = none := by
  rcases ipScanGo_decomp fuel pw rest with hid | ⟨A, m, B, Z, hAB, _, hout, _, hAl⟩
  · rw [hid]; exact hnone
  · rw [hout]
    by_contra hne
    obtain ⟨nn, hn⟩ := Option.ne_none_iff_exists.mp hne
    have hip : IsIPat ((c :: A) ++ ("[REDACTED_IP]".data ++ Z)) nn := by
      have := matchIP_sound hn.symm
      rwa [show c :: (A ++ ("[REDACTED_IP]".data ++ Z))
          = (c :: A) ++ ("[REDACTED_IP]".data ++ Z) from rfl] at this
    have hlen7 := isIPat_len hip
    rcases lt_trichotomy nn (c :: A).length with hlt | heq | hgt
    · have hip2 : IsIPat ((c :: A) ++ B) nn := isIPat_prefix_congr hlt hip
      have hceq : c :: rest = (c :: A) ++ B := by rw [hAB]; rfl
      exact matchIP_complete (hceq ▸ hip2) hnone
    · obtain ⟨T, r, hsr, hTn, _, ⟨d, hdl, hdd⟩, _⟩ := isIPat_decomp hip
      have hTP : T = c :: A := by
        have h1 := congrArg (List.take T.length) hsr
        rw [List.take_left] at h1
        rw [hTn, heq] at h1
        rw [show c :: A ++ ("[REDACTED_IP]".data ++ Z)
            = (c :: A) ++ ("[REDACTED_IP]".data ++ Z) from rfl,
          List.take_left] at h1
        exact h1.symm
      cases hA : A with
      | nil =>
        rw [hA] at hTP
        rw [hTP] at hTn
        simp at hTn
        omega
      | cons a as =>
        rw [hTP, hA, List.getLast?_cons_cons] at hdl
        have hw := hAl d (by rw [hA]; exact hdl)
        rw [digit_word hdd] at hw
        exact absurd hw (by simp)
    · obtain ⟨T, r, hsr, hTn, hchars, _, _⟩ := isIPat_decomp hip
      have hq : ((c :: A) ++ ("[REDACTED_IP]".data ++ Z))[(c :: A).length]?
          = some '[' := by
        rw [List.getElem?_append_right (le_refl _)]
        simp only [Nat.sub_self]
        rfl
      rw [hsr, List.getElem?_append,
        if_pos (by rw [hTn]; exact hgt)] at hq
      have hmem : '[' ∈ T := List.getElem?_mem hq
      rcases hchars '[' hmem with hx | hx
      · exact absurd hx (by decide)
      · exact absurd hx (by decide)

/-- Stepping `noIPB` past a position with no match. -/
theorem noIPB_of_none {c : Char} {t : List Char} (b : Bool)
    (h : matchIP (c :: t) = none) :
    noIPB b (c :: t) = noIPB (wordChar c) t := by
  have hdef : noIPB b (c :: t)
      = if ¬b ∧ (matchIP (c :: t)).isSome then false
        else noIPB (wordChar c) t := rfl
  rw [hdef, if_neg]
  intro hcond
  rw [h] at hcond
  exact absurd hcond.2 (by simp)

/-- A clean scan stays clean under any left context. -/
theorem noIPB_mono {s : List Char} (h : noIPB false s = true) (b : Bool) :
    noIPB b s = true := by
  cases s with
  | nil => rfl
  | cons c t =>
    unfold noIPB at h ⊢
    cases hm : (matchIP (c :: t)).isSome with
    | true =>
      rw [if_pos (by simp [hm])] at h
      exact absurd h (by simp)
    | false =>
      rw [if_neg (by simp [hm])] at h
      rw [if_neg (by simp [hm])]
      exact h

/-- Prepending non-digit characters preserves cleanliness. -/
theorem noIPB_append_nodigit (xs : List Char) :
    ∀ (Z : List Char) (b : Bool), (∀ x ∈ xs, x.isDigit = false) →
      noIPB false Z = true → noIPB b (xs ++ Z) = true := by
  induction xs with
  | nil => exact fun Z b _ hZ => noIPB_mono hZ b
  | cons x xt ih =>
    intro Z b hx hZ
    have hnd : x.isDigit = false := hx x (by simp)
    rw [show (x :: xt) ++ Z = x :: (xt ++ Z) from rfl,
      noIPB_of_none b (matchIP_none_of_head _ hnd)]
    exact ih Z (wordChar x) (fun y hy => hx y (by simp [hy])) hZ

/-- A word-context scan copies the head character. -/
theorem ipScanGo_true_cons (fuel : Nat) (d : Char) (wt : List Char) :
    ∃ zt, ipScanGo fuel true (d :: wt) = d :: zt := by
  cases fuel with
  | zero => exact ⟨wt, rfl⟩
  | succ fuel => exact ⟨ipScanGo fuel (wordChar d) wt, by simp [ipScanGo]⟩

/-- Dropping the word-context guard is harmless when the head is not a
digit. -/
theorem noIPB_false_of_true {Z : List Char} (h : noIPB true Z = true)
    (hh : ∀ d, Z.head? = some d → d.isDigit = false) :
    noIPB false Z = true := by
  cases Z with
  | nil => rfl
  | cons d zt =>
    have hnd : d.isDigit = false := hh d rfl
    rw [noIPB_of_none false (matchIP_none_of_head _ hnd)]
    have hdef : noIPB true (d :: zt)
        = if ¬(true : Bool) ∧ (matchIP (d :: zt)).isSome then false
          else noIPB (wordChar d) zt := rfl
    rw [hdef, if_neg (by simp)] at h
    exact h

/-- Main invariant: a scan whose checker starts in the scanner's own left
context reports no boundary-delimited IPv4 match in the output. -/
theorem noIPB_ipScanGo : ∀ (fuel : Nat) (pw : Bool) (s : List Char),
    s.length ≤ fuel →
    noIPB pw (ipScanGo fuel pw s) = true := by
  intro fuel
  induction fuel with
  | zero =>
    intro pw s hl
    have : s = [] := List.eq_nil_of_length_eq_zero (by omega)
    rw [this]
    cases pw <;> rfl
  | succ fuel ih =>
    intro pw s hl
    cases s with
    | nil => cases pw <;> rfl
    | cons c rest =>
      have hrl : rest.length ≤ fuel := by simp at hl; omega
      cases pw with
      | true =>
        have hstep : ipScanGo (fuel + 1) true (c :: rest)
            = c :: ipScanGo fuel (wordChar c) rest := by
          simp [ipScanGo]
        rw [hstep]
        have hdef : noIPB true (c :: ipScanGo fuel (wordChar c) rest)
            = if ¬(true : Bool) ∧ (matchIP (c :: ipScanGo fuel (wordChar c) rest)).isSome
              then false
              else noIPB (wordChar c) (ipScanGo fuel (wordChar c) rest) := rfl
        rw [hdef, if_neg (by simp)]
        exact ih (wordChar c) rest hrl
      | false =>
        cases hm : matchIP (c :: rest) with
        | some m =>
          have hstep : ipScanGo (fuel + 1) false (c :: rest)
              = "[REDACTED_IP]".data ++ ipScanGo fuel true (List.drop m (c :: rest)) := by
            simp only [ipScanGo, hm]
            rw [if_neg Bool.false_ne_true]
          rw [hstep]
          have hip := matchIP_sound hm
          have hlen := isIPat_len hip
          obtain ⟨T, r, hsr, hTn, _, _, hbd⟩ := isIPat_decomp hip
          have hdrop : List.drop m (c :: rest) = r := by
            rw [hsr, ← hTn, List.drop_left]
          have hdlen : (List.drop m (c :: rest)).length ≤ fuel := by
            rw [List.length_drop]
            simp only [List.length_cons] at hlen ⊢
            simp only [List.length_cons] at hl
            omega
          have hZtrue := ih true (List.drop m (c :: rest)) hdlen
          have hZ : noIPB false (ipScanGo fuel true (List.drop m (c :: rest))) = true := by
            refine noIPB_false_of_true hZtrue ?_
            intro d hd
            rw [hdrop] at hd
            cases r with
            | nil =>
              cases fuel with
              | zero => exact absurd hd (by simp [ipScanGo])
              | succ fuel => exact absurd hd (by simp [ipScanGo])
            | cons rh rt =>
              obtain ⟨zt, hzt⟩ := ipScanGo_true_cons fuel rh rt
              rw [hzt] at hd
              simp only [List.head?_cons, Option.some.injEq] at hd
              have hbd2 : (!wordChar rh) = true := hbd
              have hwc : wordChar rh = false := by
                cases hwc0 : wordChar rh with
                | false => rfl
                | true => rw [hwc0] at hbd2; exact absurd hbd2 (by simp)
              rw [← hd]
              cases hdg : rh.isDigit with
              | false => rfl
              | true => rw [digit_word hdg] at hwc; exact absurd hwc (by simp)
          exact noIPB_append_nodigit _ _ false (by decide) hZ
        | none =>
          have hstep : ipScanGo (fuel + 1) false (c :: rest)
              = c :: ipScanGo fuel (wordChar c) rest := by
            simp only [ipScanGo, hm]
            rw [if_neg Bool.false_ne_true]
          rw [hstep]
          rw [noIPB_of_none false (matchIP_scan_none c fuel (wordChar c) rest hm)]
          exact ih (wordChar c) rest hrl

/-- After `sanitize_error`, no boundary-delimited IPv4 pattern remains. -/
theorem sanitize_error_noIP (msg : List Char) :
    noIPB false (sanitize_error msg) = true := by
  unfold sanitize_error ipSub
  exact noIPB_ipScanGo _ false _ (le_refl _)

/-! Claim-side vocabulary for C6: substring containment, the claim's notion
of an IPv4 literal, and the texts surfaced by a response. -/

/-- Boolean prefix test (`sub` starts `hay`). -/
def leadsWith : List Char → List Char → Bool
  | [], _ => true
  | _ :: _, [] => false
  | c :: cs, h :: hs => c == h && leadsWith cs hs

/-- Boolean substring containment (`sub` occurs contiguously in `hay`),
the claim's "appears anywhere in" relation. -/
def containsSub : List Char → List Char → Bool
  | [], sub => leadsWith sub []
  | c :: t, sub => leadsWith sub (c :: t) || containsSub t sub

/-- Split a text at every dot. -/
def splitDots : List Char → List (List Char)
  | [] => [[]]
  | c :: t =>
    if c = '.' then [] :: splitDots t
    else
      match splitDots t with
      | [] => [[c]]
      | p :: ps => (c :: p) :: ps

/-- Decimal value of a digit string. -/
def octVal (o : List Char) : Nat :=
  o.foldl (fun a c => a * 10 + (c.toNat - 48)) 0

/-- Modelled from the claim: a legal dotted-quad octet (one to three
digits, value at most 255). -/
def isOctetLit (o : List Char) : Bool :=
  (!o.isEmpty) && decide (o.length ≤ 3) && o.all Char.isDigit &&
    decide (octVal o ≤ 255)

/-- Modelled from the claim: an IPv4 literal is four dot-separated legal
octets. -/
def isIPv4Lit (s : List Char) : Bool :=
  decide ((splitDots s).length = 4) && (splitDots s).all isOctetLit

/-- All texts surfaced by an error response. -/
def respTexts (r : ErrorResponse) : List (List Char) :=
  r.error :: (r.error_detail.toList ++ r.error_context.toList)

/-- Literal rendering of claim C6 for a driver message `msg`, a configured
password, a context string, and the include-details flag: success is false,
the password appears nowhere in the response, and no IPv4 literal that
appears in the driver message appears anywhere in the response. -/
def Claim6 (password msg ctx : List Char) (incl : Bool) : Prop :=
  (create_error_response msg ctx incl).success = false ∧
  (∀ t ∈ respTexts (create_error_response msg ctx incl),
    containsSub t password = false) ∧
  (∀ ip : List Char, isIPv4Lit ip = true → containsSub msg ip = true →
    ∀ t ∈ respTexts (create_error_response msg ctx incl),
      containsSub t ip = false)

/-- C6 counterexample: for the driver message
`pw hunter2 from 111.222.133.2445` with configured password `hunter2`, the
response error carries both the password and the IPv4 literal
`111.222.133.244` (a substring of the message that the regex leaves alone
because its final digit run has four digits, so the trailing `\b` fails);
the claim as stated is false. -/
theorem c6_counterexample :
    ¬ Claim6 "hunter2".data "pw hunter2 from 111.222.133.2445".data
        "query".data false ∧
    isIPv4Lit "111.222.133.244".data = true ∧
    containsSub "pw hunter2 from 111.222.133.2445".data
      "111.222.133.244".data = true ∧
    containsSub (create_error_response "pw hunter2 from 111.222.133.2445".data
      "query".data false).error "111.222.133.244".data = true ∧
    containsSub (create_error_response "pw hunter2 from 111.222.133.2445".data
      "query".data false).error "hunter2".data = true := by
  refine ⟨?_, by decide, by decide, by decide, by decide⟩
  intro h
  have h2 := h.2.2 "111.222.133.244".data (by decide) (by decide)
    (create_error_response "pw hunter2 from 111.222.133.2445".data
      "query".data false).error (List.mem_cons_self _ _)
  have h3 : containsSub (create_error_response
      "pw hunter2 from 111.222.133.2445".data "query".data false).error
      "111.222.133.244".data = true := by decide
  rw [h2] at h3
  exact Bool.false_ne_true h3

/-- C6 (amended): every response built by `create_error_response` has
`success = false`; its `error` field is the simplification of the sanitised
driver message and its `error_detail`, when present, is exactly the
sanitised driver message; and the sanitised driver message — the result of
applying the five sensitive-pattern substitutions in order — retains no
word-boundary-delimited occurrence of the IPv4 pattern
`\b\d{1,3}\.\d{1,3}\.\d{1,3}\.\d{1,3}\b` (every one was replaced by the
token `[REDACTED_IP]`). -/
theorem c6_theorem (msg ctx : List Char) (incl : Bool) :
    (create_error_response msg ctx incl).success = false ∧
    (create_error_response msg ctx incl).error
      = simplify_error (sanitize_error msg) ∧
    ((create_error_response msg ctx incl).error_detail = none ∨
      (create_error_response msg ctx incl).error_detail
        = some (sanitize_error msg)) ∧
    noIPB false (sanitize_error msg) = true := by
  refine ⟨rfl, rfl, ?_, sanitize_error_noIP msg⟩
  unfold create_error_response
  by_cases hc : incl = true ∧ sanitize_error msg ≠ simplify_error (sanitize_error msg)
  · right
    simp only [if_pos hc]
  · left
    simp only [if_neg hc]

end SqlMcp
